import Mathlib

/-!
Nostr Web Tokens (pippellia-btc/nwt): a shallow embedding.

The development follows the three source files of the package:

* `validator.go`: `MinTime`, `MaxTime`, `StrictValidator.Validate`, `ValidateTimeBounds`;
* `token.go`: `MaxClaims`, `Token`, `Token.IsActiveAt`, `Token.ToTags`, `ParseToken`,
  `parseUnixTime`;
* `event.go`: `ExtractEventHTTP`, `ValidateEvent`.

Modelling conventions.

* A Go `time.Time` is its wall instant: the pair of `sec` (seconds since January 1 of year 1,
  an int64) and `nsec` (nanoseconds inside the second).  The location and the monotonic clock
  reading are not part of the model.
* A Go `time.Duration` is an int64 number of nanoseconds; Go arithmetic on int64 wraps, which is
  written out with `wrapInt64`.
* An `error` is represented by the sentinel it is or wraps, that is by its `errors.Is` class;
  the detail text added by `fmt.Errorf` is not represented.  `nil` is `none`.
* A Go function returning `(T, error)` returns a pair here.
* The wall clock read by `time.Now()` is an explicit argument `now`.
* A Go string is a `String`, a slice a `List` (the nil slice and the empty slice are both `[]`),
  and a `map[string][]string` an optional list of entries (`none` is the nil map).

The file has three parts: the embedding of the code, the vocabulary in which the
specification is read (mathematical instants, last tag of a name, and so on), and the theorems.
-/

namespace Nwt

/-! ## Machine integers -/

/-- Smallest int64. -/
def MinInt64 : Int := -9223372036854775808

/-- Largest int64. -/
def MaxInt64 : Int := 9223372036854775807

/-- Largest uint64. -/
def MaxUint64 : Nat := 18446744073709551615

/-- Membership in the int64 range. -/
def IsInt64 (x : Int) : Prop := MinInt64 ≤ x ∧ x ≤ MaxInt64

instance (x : Int) : Decidable (IsInt64 x) := by
  unfold IsInt64; exact inferInstance

/-- Two-complement reduction of an integer into the int64 range: the value Go stores after an
int64 operation whose mathematical result is `x`. -/
def wrapInt64 (x : Int) : Int := (x + 9223372036854775808) % 18446744073709551616 - 9223372036854775808

/-! ## `time.Duration` -/

/-- A `time.Duration`: an int64 count of nanoseconds. -/
abbrev Duration := Int

/-- Unary minus on a `time.Duration` (int64 negation, which wraps at `MinInt64`). -/
def Duration.neg (d : Duration) : Int := wrapInt64 (-d)

/-! ## `time.Time` -/

/-- The wall instant of a `time.Time`: `sec` is what `t.sec()` returns (seconds since
January 1, year 1 00:00:00 UTC) and `nsec` what `t.nsec()` returns. -/
structure Time where
  sec : Int
  nsec : Int
  deriving DecidableEq, Repr

namespace Time

/-- The representation invariant of `time.Time`: `sec` is an int64 and `nsec` lies in
`[0, 999999999]`. -/
def Valid (t : Time) : Prop := IsInt64 t.sec ∧ 0 ≤ t.nsec ∧ t.nsec < 1000000000

instance (t : Time) : Decidable (Valid t) := by
  unfold Valid; exact inferInstance

/-- The zero `time.Time`, January 1, year 1, 00:00:00 UTC. -/
def zero : Time := ⟨0, 0⟩

/-- The method `Time.IsZero`. -/
def IsZero (t : Time) : Bool := t.sec == 0 && t.nsec == 0

/-- The method `Time.Before`: `ts < us || ts == us && t.nsec() < u.nsec()`. -/
def Before (t u : Time) : Bool :=
  decide (t.sec < u.sec) || (t.sec == u.sec && decide (t.nsec < u.nsec))

/-- The method `Time.After`: `ts > us || ts == us && t.nsec() > u.nsec()`. -/
def After (t u : Time) : Bool :=
  decide (t.sec > u.sec) || (t.sec == u.sec && decide (t.nsec > u.nsec))

/-- The method `Time.addSec` (no monotonic reading): int64 addition that clamps to
`±(1<<63 - 1)` when the sum overflows. -/
def addSec (t : Time) (d : Int) : Time :=
  let sum := wrapInt64 (t.sec + d)
  if decide (sum > t.sec) = decide (d > 0) then { t with sec := sum }
  else if d > 0 then { t with sec := 9223372036854775807 }
  else { t with sec := -9223372036854775807 }

/-- The method `Time.Add`.  Go division and remainder truncate toward zero. -/
def Add (t : Time) (d : Duration) : Time :=
  let dsec := Int.tdiv d 1000000000
  let nsec := t.nsec + Int.tmod d 1000000000
  if nsec ≥ 1000000000 then
    addSec { t with nsec := nsec - 1000000000 } (dsec + 1)
  else if nsec < 0 then
    addSec { t with nsec := nsec + 1000000000 } (dsec - 1)
  else
    addSec { t with nsec := nsec } dsec

/-- The constant `unixToInternal` of package time: seconds from year 1 to 1970. -/
def unixToInternal : Int := (1969 * 365 + 1969 / 4 - 1969 / 100 + 1969 / 400) * 86400

/-- The constant `internalToUnix` of package time. -/
def internalToUnix : Int := -unixToInternal

/-- The method `Time.Unix`: seconds since January 1, 1970 UTC (int64 arithmetic). -/
def Unix (t : Time) : Int := wrapInt64 (t.sec + internalToUnix)

/-- The mathematical instant of a time, in nanoseconds since January 1 of year 1.  Used only in
specifications. -/
def nanos (t : Time) : Int := t.sec * 1000000000 + t.nsec

end Time

/-- The function `time.Unix(sec, nsec)` followed by `.UTC()`. -/
def Unix (sec nsec : Int) : Time :=
  if nsec < 0 ∨ nsec ≥ 1000000000 then
    let n := Int.tdiv nsec 1000000000
    let sec1 := wrapInt64 (sec + n)
    let nsec1 := nsec - n * 1000000000
    if nsec1 < 0 then ⟨wrapInt64 (wrapInt64 (sec1 - 1) + Time.unixToInternal), nsec1 + 1000000000⟩
    else ⟨wrapInt64 (sec1 + Time.unixToInternal), nsec1⟩
  else ⟨wrapInt64 (sec + Time.unixToInternal), nsec⟩

/-- Gregorian leap years. -/
def isLeap (year : Int) : Bool := year % 4 == 0 && (year % 100 != 0 || year % 400 == 0)

/-- Days of a non-leap year that precede the first day of `month` (1 to 12). -/
def daysBefore (month : Nat) : Int :=
  match month with
  | 1 => 0 | 2 => 31 | 3 => 59 | 4 => 90 | 5 => 120 | 6 => 151
  | 7 => 181 | 8 => 212 | 9 => 243 | 10 => 273 | 11 => 304 | _ => 334

/-- The function `time.Date(year, month, day, hour, min, sec, nsec, time.UTC)` on arguments
that are already normalised (month in 1..12, day inside the month, and so on): the number of
days since January 1 of year 1 in the proleptic Gregorian calendar, times 86400, plus the time
of day. -/
def Date (year : Int) (month : Nat) (day hour min sec nsec : Int) : Time :=
  let y := year - 1
  let d := 365 * y + y / 4 - y / 100 + y / 400 + daysBefore month
    + (if isLeap year && decide (month > 2) then 1 else 0) + (day - 1)
  ⟨d * 86400 + hour * 3600 + min * 60 + sec, nsec⟩

/-! ## validator.go: constants and errors -/

/-- The variable `MinTime = time.Unix(0, 0).UTC()`. -/
def MinTime : Time := Unix 0 0

/-- The variable `MaxTime = time.Date(9999, 12, 31, 23, 59, 59, 0, time.UTC)`. -/
def MaxTime : Time := Date 9999 12 31 23 59 59 0

/-- The error of `strconv.ParseInt`: the `Err` field of its `*NumError`. -/
inductive NumError where
  | ErrSyntax
  | ErrRange
  deriving DecidableEq, Repr

/-- The error values of the package, up to `errors.Is`. -/
inductive Error where
  | ErrEmptyID
  | ErrInvalidIssuedAt
  | ErrInvalidExpiration
  | ErrInvalidNotBefore
  | ErrInvalidTimeWindow
  | ErrInvalidAudience
  | ErrNotYetValid
  | ErrExpired
  | ErrMissingHeader
  | ErrInvalidHeader
  | ErrInvalidEventJSON
  | ErrInvalidEventKind
  | ErrInvalidEventCreatedAt
  | ErrInvalidEventID
  | ErrInvalidEventSignature
  | InvalidUnixTime (cause : NumError)
  deriving DecidableEq, Repr

/-! ## token.go: the token -/

/-- A Go `map[string][]string` that is not nil: its entries, one per key. -/
abbrev ClaimMap := List (String × List String)

/-- Map lookup `m[k]` with the presence flag. -/
def ClaimMap.get? (m : ClaimMap) (k : String) : Option (List String) :=
  match m with
  | [] => none
  | (k1, v1) :: rest => if k1 = k then some v1 else ClaimMap.get? rest k

/-- Map assignment `m[k] = v`: the entry of `k` is replaced when present, added otherwise. -/
def ClaimMap.set (m : ClaimMap) (k : String) (v : List String) : ClaimMap :=
  match m with
  | [] => [(k, v)]
  | (k1, v1) :: rest => if k1 = k then (k, v) :: rest else (k1, v1) :: ClaimMap.set rest k v

/-- The struct `Token`.  `Claims` is `none` for the nil map. -/
structure Token where
  ID : String
  Issuer : String
  Subject : String
  Audience : List String
  IssuedAt : Time
  Expiration : Time
  NotBefore : Time
  Claims : Option ClaimMap
  deriving DecidableEq, Repr

/-- The zero value `Token{}`. -/
def Token.zero : Token :=
  { ID := "", Issuer := "", Subject := "", Audience := [], IssuedAt := Time.zero,
    Expiration := Time.zero, NotBefore := Time.zero, Claims := none }

/-- The representation invariant of the three times of a token. -/
def Token.Valid (t : Token) : Prop := t.IssuedAt.Valid ∧ t.Expiration.Valid ∧ t.NotBefore.Valid

instance (t : Token) : Decidable (Token.Valid t) := by
  unfold Token.Valid; exact inferInstance

/-- The method `Token.IsActiveAt`. -/
def Token.IsActiveAt (t : Token) (now : Time) (skew : Duration) : Bool :=
  if now.Before (t.NotBefore.Add (Duration.neg skew)) then false
  else if now.After (t.Expiration.Add skew) then false
  else true

/-! ## validator.go: validation -/

/-- The function `ValidateTimeBounds`. -/
def ValidateTimeBounds (t : Token) : Option Error :=
  if t.IssuedAt.Before MinTime || t.IssuedAt.After MaxTime then some Error.ErrInvalidIssuedAt
  else if t.Expiration.Before MinTime || t.Expiration.After MaxTime then
    some Error.ErrInvalidExpiration
  else if t.NotBefore.Before MinTime || t.NotBefore.After MaxTime then
    some Error.ErrInvalidNotBefore
  else if t.NotBefore.After t.Expiration then some Error.ErrInvalidTimeWindow
  else none

/-- The struct `StrictValidator`. -/
structure StrictValidator where
  Identifier : String
  ClockSkew : Duration
  deriving DecidableEq, Repr

/-- The function `slices.Contains` on strings. -/
def slicesContains (s : List String) (v : String) : Bool :=
  match s with
  | [] => false
  | x :: rest => if x = v then true else slicesContains rest v

/-- The method `StrictValidator.Validate`; `now` is the value of `time.Now()`. -/
def StrictValidator.Validate (v : StrictValidator) (now : Time) (t : Token) : Option Error :=
  if t.ID = "" then some Error.ErrEmptyID
  else
    match ValidateTimeBounds t with
    | some err => some err
    | none =>
      if now.Before (t.NotBefore.Add (Duration.neg v.ClockSkew)) then some Error.ErrNotYetValid
      else if now.After (t.Expiration.Add v.ClockSkew) then some Error.ErrExpired
      else if t.Audience.length > 0 then
        if !slicesContains t.Audience v.Identifier then some Error.ErrInvalidAudience
        else none
      else none

/-! ## strconv.ParseInt -/

/-- The loop of `strconv.ParseUint(s, 10, 64)` over the bytes of `s`, with `n` the value read so
far.  In base 10 every byte other than a decimal digit is a syntax error (a letter is a digit
not below the base, an underscore is only allowed for base 0). -/
def ParseUintLoop (s : List Char) (n : Nat) : Nat × Option NumError :=
  match s with
  | [] => (n, none)
  | c :: rest =>
    if '0' ≤ c ∧ c ≤ '9' then
      let d := c.toNat - '0'.toNat
      if n ≥ MaxUint64 / 10 + 1 then (MaxUint64, some NumError.ErrRange)
      else
        let n10 := n * 10
        let n1 := (n10 + d) % 18446744073709551616
        if n1 < n10 ∨ n1 > MaxUint64 then (MaxUint64, some NumError.ErrRange)
        else ParseUintLoop rest n1
    else (0, some NumError.ErrSyntax)

/-- The function `strconv.ParseUint(s, 10, 64)`. -/
def ParseUint (s : List Char) : Nat × Option NumError :=
  if s = [] then (0, some NumError.ErrSyntax) else ParseUintLoop s 0

/-- The function `strconv.ParseInt(s, 10, 64)`. -/
def ParseInt (s : String) : Int × Option NumError :=
  if s.data = [] then (0, some NumError.ErrSyntax)
  else
    let neg : Bool := s.data.head? == some '-'
    let digits := if s.data.head? == some '+' || neg then s.data.tail else s.data
    match ParseUint digits with
    | (_, some NumError.ErrSyntax) => (0, some NumError.ErrSyntax)
    | (un, _) =>
      if !neg && decide (un ≥ 9223372036854775808) then
        (9223372036854775807, some NumError.ErrRange)
      else if neg && decide (un > 9223372036854775808) then
        (-9223372036854775808, some NumError.ErrRange)
      else
        let n := wrapInt64 (un : Int)
        (if neg then wrapInt64 (-n) else n, none)

/-! ## The nostr event -/

/-- The struct `nostr.Event`; `CreatedAt` is a `nostr.Timestamp`, an int64 of Unix seconds, and
a tag is a list of strings. -/
structure Event where
  ID : String
  PubKey : String
  CreatedAt : Int
  Kind : Int
  Tags : List (List String)
  Content : String
  Sig : String
  deriving DecidableEq, Repr

/-- The method `nostr.Timestamp.Time`, which is `time.Unix(int64(t), 0)`. -/
def Timestamp.Time (t : Int) : Time := Unix t 0

/-! ## token.go: parsing -/

/-- The function `parseUnixTime`. -/
def parseUnixTime (t : String) : Time × Option Error :=
  match ParseInt t with
  | (_, some err) => (Time.zero, some (Error.InvalidUnixTime err))
  | (unix, none) => (Unix unix 0, none)

/-- The body of the loop of `ParseToken` for one tag: the updated token, or the error with
which the function returns. -/
def parseTag (token : Token) (tag : List String) : Except Error Token :=
  match tag with
  | name :: value :: _ =>
    if name = "iss" then Except.ok { token with Issuer := value }
    else if name = "sub" then Except.ok { token with Subject := value }
    else if name = "aud" then Except.ok { token with Audience := token.Audience ++ tag.tail }
    else if name = "iat" then
      match parseUnixTime value with
      | (_, some err) => Except.error err
      | (time, none) => Except.ok { token with IssuedAt := time }
    else if name = "exp" then
      match parseUnixTime value with
      | (_, some err) => Except.error err
      | (time, none) => Except.ok { token with Expiration := time }
    else if name = "nbf" then
      match parseUnixTime value with
      | (_, some err) => Except.error err
      | (time, none) => Except.ok { token with NotBefore := time }
    else
      Except.ok { token with Claims := some (ClaimMap.set (token.Claims.getD []) name tag.tail) }
  | _ => Except.ok token

/-- The loop `for _, tag := range event.Tags` of `ParseToken`; an error returns `Token{}`. -/
def ParseTokenLoop (tags : List (List String)) (token : Token) : Token × Option Error :=
  match tags with
  | [] => (token, none)
  | tag :: rest =>
    match parseTag token tag with
    | Except.error err => (Token.zero, some err)
    | Except.ok token1 => ParseTokenLoop rest token1

/-- The function `ParseToken`. -/
def ParseToken (event : Event) : Token × Option Error :=
  ParseTokenLoop event.Tags
    { ID := event.ID, Issuer := event.PubKey, Subject := event.PubKey, Audience := [],
      IssuedAt := Timestamp.Time event.CreatedAt, Expiration := MaxTime, NotBefore := MinTime,
      Claims := none }

/-! ## event.go: event validation -/

/-- The function `ValidateEvent`.  The constant `Kind` of the package and the two methods of
`nostr.Event` it calls, `CheckID` and `CheckSignature` (which returns a flag and an error), are
parameters. -/
def ValidateEvent (Kind : Int) (CheckID : Event → Bool)
    (CheckSignature : Event → Bool × Option String) (e : Event) : Option Error :=
  if e.Kind ≠ Kind then some Error.ErrInvalidEventKind
  else if e.CreatedAt < MinTime.Unix then some Error.ErrInvalidEventCreatedAt
  else if e.CreatedAt > MaxTime.Unix then some Error.ErrInvalidEventCreatedAt
  else if !CheckID e then some Error.ErrInvalidEventID
  else
    match CheckSignature e with
    | (_, some _) => some Error.ErrInvalidEventSignature
    | (ok, none) => if !ok then some Error.ErrInvalidEventSignature else none

/-! ## Vocabulary of the specification -/

/-- An instant from `MinTime` to `MaxTime`, both ends included. -/
def InBounds (x : Time) : Prop := MinTime.nanos ≤ x.nanos ∧ x.nanos ≤ MaxTime.nanos

instance (x : Time) : Decidable (InBounds x) := by
  unfold InBounds; exact inferInstance

/-- The first violation of the time bounds, in the order issued-at, expiration, not-before,
time window, read on the mathematical instants. -/
def firstTimeViolation (t : Token) : Option Error :=
  if ¬ InBounds t.IssuedAt then some Error.ErrInvalidIssuedAt
  else if ¬ InBounds t.Expiration then some Error.ErrInvalidExpiration
  else if ¬ InBounds t.NotBefore then some Error.ErrInvalidNotBefore
  else if t.Expiration.nanos < t.NotBefore.nanos then some Error.ErrInvalidTimeWindow
  else none

/-- The instant `n` (nanoseconds since year 1) can be stored in a `time.Time` without clamping
of the seconds. -/
def Representable (n : Int) : Prop :=
  MinInt64 * 1000000000 ≤ n ∧ n < (MaxInt64 + 1) * 1000000000

instance (n : Int) : Decidable (Representable n) := by
  unfold Representable; exact inferInstance

/-- The order of the checks of the strict policy, read on the mathematical instants. -/
def firstViolation (v : StrictValidator) (now : Time) (t : Token) : Option Error :=
  if t.ID = "" then some Error.ErrEmptyID
  else if ValidateTimeBounds t ≠ none then ValidateTimeBounds t
  else if now.nanos < t.NotBefore.nanos - v.ClockSkew then some Error.ErrNotYetValid
  else if now.nanos > t.Expiration.nanos + v.ClockSkew then some Error.ErrExpired
  else if t.Audience ≠ [] ∧ v.Identifier ∉ t.Audience then some Error.ErrInvalidAudience
  else none

/-- The order of the checks on an event: `kind` is the NWT kind, `idOK` the result of the
identifier check, `sigOK` and `sigErr` the flag and the error of the signature check. -/
def firstEventViolation (kind : Int) (idOK sigOK : Bool) (sigErr : Option String)
    (e : Event) : Option Error :=
  if e.Kind ≠ kind then some Error.ErrInvalidEventKind
  else if e.CreatedAt < 0 ∨ e.CreatedAt > 253402300799 then some Error.ErrInvalidEventCreatedAt
  else if idOK = false then some Error.ErrInvalidEventID
  else if sigErr ≠ none ∨ sigOK = false then some Error.ErrInvalidEventSignature
  else none

/-- A token with an identifier, no audience and the widest window, from `MinTime` to
`MaxTime`. -/
def wideToken : Token :=
  { Token.zero with ID := "id", IssuedAt := MinTime, Expiration := MaxTime, NotBefore := MinTime }

/-- The instant `time.Unix(1767957502, 0)`, in January 2026: the creation time of the events
of the validation test. -/
def now2026 : Time := Unix 1767957502 0

/-- The value a tag gives to the claim `name`: its second element, when the tag has at least
two elements and its first element is `name`. -/
def tagValue (name : String) (tag : List String) : Option String :=
  match tag with
  | n :: value :: _ => if n = name then some value else none
  | _ => none

/-- The second element of the last tag called `name` that has at least two elements. -/
def lastValue (name : String) (tags : List (List String)) : Option String :=
  (tags.filterMap (tagValue name)).getLast?

/-- A tag called `name` with at least two elements. -/
def isTag (name : String) (tag : List String) : Bool :=
  match tag with
  | n :: _ :: _ => decide (n = name)
  | _ => false

/-- The elements after the name in the last tag called `name` that has at least two
elements. -/
def lastRest (name : String) (tags : List (List String)) : Option (List String) :=
  ((tags.filter (isTag name)).getLast?).map List.tail

/-- The six registered claim names. -/
def registeredNames : List String := ["iss", "sub", "aud", "iat", "exp", "nbf"]

/-- A tag with at least two elements whose name is not a registered claim name. -/
def isCustomTag (tag : List String) : Bool :=
  match tag with
  | n :: _ :: _ => decide (n ∉ registeredNames)
  | _ => false

/-- A tag with at least two elements, called iat, exp or nbf, whose second element is
refused by `strconv.ParseInt`. -/
def isBadTimeTag (tag : List String) : Bool :=
  match tag with
  | n :: value :: _ =>
    decide (n = "iat" ∨ n = "exp" ∨ n = "nbf") && decide ((ParseInt value).2 ≠ none)
  | _ => false

/-- The instant of the Unix second written in `value`. -/
def timeOf (value : String) : Time := Unix (ParseInt value).1 0

/-- What one tag does to the custom claims. -/
def claimStep (claims : Option ClaimMap) (tag : List String) : Option ClaimMap :=
  if isCustomTag tag then some (ClaimMap.set (claims.getD []) (tag.headD "") tag.tail)
  else claims

/-- What one tag whose value is well formed does to a token, field by field. -/
def applyTag (token : Token) (tag : List String) : Token :=
  { ID := token.ID
    Issuer := (tagValue "iss" tag).getD token.Issuer
    Subject := (tagValue "sub" tag).getD token.Subject
    Audience := token.Audience ++ (if isTag "aud" tag then tag.tail else [])
    IssuedAt := ((tagValue "iat" tag).map timeOf).getD token.IssuedAt
    Expiration := ((tagValue "exp" tag).map timeOf).getD token.Expiration
    NotBefore := ((tagValue "nbf" tag).map timeOf).getD token.NotBefore
    Claims := claimStep token.Claims tag }

/-- The token with which `ParseToken` starts. -/
def initialToken (e : Event) : Token :=
  { ID := e.ID, Issuer := e.PubKey, Subject := e.PubKey, Audience := [],
    IssuedAt := Unix e.CreatedAt 0, Expiration := MaxTime, NotBefore := MinTime,
    Claims := none }

/-- The event of the parsing test: tags sub, aud and exp. -/
def testEvent : Event :=
  { ID := "id", PubKey := "pubkey", CreatedAt := 420, Kind := 1,
    Tags := [["sub", "subject"], ["aud", "aud1", "aud2"], ["exp", "6969"]],
    Content := "", Sig := "" }

/-- An event with custom tags, one name occurring twice, and tags without a value. -/
def customEvent : Event :=
  { ID := "id", PubKey := "pubkey", CreatedAt := 420, Kind := 1,
    Tags := [["role", "admin"], ["permission", "read", "write"], ["role", "user", "guest"],
      ["iat"], [], ["aud", "a"], ["aud", "b", "c"]],
    Content := "", Sig := "" }

/-- An event whose tags all lack a value. -/
def bareEvent : Event :=
  { ID := "id", PubKey := "pubkey", CreatedAt := 420, Kind := 1,
    Tags := [["iat"], [], ["role"]], Content := "", Sig := "" }

/-- The token expected by the parsing test for `testEvent`. -/
def testToken : Token :=
  { ID := "id", Issuer := "pubkey", Subject := "subject", Audience := ["aud1", "aud2"],
    IssuedAt := Unix 420 0, Expiration := Unix 6969 0, NotBefore := MinTime, Claims := none }

/-- The token parsed from `customEvent`. -/
def customToken : Token :=
  { ID := "id", Issuer := "pubkey", Subject := "pubkey", Audience := ["a", "b", "c"],
    IssuedAt := Unix 420 0, Expiration := MaxTime, NotBefore := MinTime,
    Claims := some [("role", ["user", "guest"]), ("permission", ["read", "write"])] }

/-! ## token.go: `MaxClaims` and `ToTags` -/

/-- The constant `MaxClaims`. -/
def MaxClaims : Nat := 512

/-- The byte of the decimal digit `d`. -/
def digitChar (d : Nat) : Char := Char.ofNat (48 + d)

/-- The digits that `strconv.FormatInt` writes for the magnitude `u` in base 10, put in front
of `acc`; the least significant digit is produced first and `fuel` bounds the number of digits
(a uint64 has at most 20). -/
def formatDigits (fuel : Nat) (u : Nat) (acc : List Char) : List Char :=
  match fuel with
  | 0 => acc
  | fuel + 1 =>
    let acc1 := digitChar (u % 10) :: acc
    if u / 10 = 0 then acc1 else formatDigits fuel (u / 10) acc1

/-- The function `strconv.FormatInt(i, 10)` on an int64: the decimal digits of the magnitude
(`uint64(i)`, negated when `i` is negative), after a minus sign when `i` is negative. -/
def FormatInt (i : Int) : String :=
  let u : Nat := (if i < 0 then -i else i).toNat
  let digits := formatDigits 20 u []
  String.mk (if i < 0 then '-' :: digits else digits)

/-- The tag that `ToTags` builds for one entry of `Claims`: the key followed by the values. -/
def entryTag (entry : String × List String) : List String := entry.1 :: entry.2

/-- The method `Token.ToTags`.  The argument `iter` is the sequence of entries that
`for k, v := range t.Claims` yields, which Go leaves unspecified: any arrangement of the
entries of the map (see `RangeOrder`). -/
def Token.ToTags (t : Token) (iter : ClaimMap) : List (List String) :=
  let tags : List (List String) := []
  let tags := if t.Issuer ≠ "" then tags ++ [["iss", t.Issuer]] else tags
  let tags := if t.Subject ≠ "" then tags ++ [["sub", t.Subject]] else tags
  let tags := if t.Audience.length > 0 then tags ++ ["aud" :: t.Audience] else tags
  let tags :=
    if !t.IssuedAt.IsZero then tags ++ [["iat", FormatInt t.IssuedAt.Unix]] else tags
  let tags :=
    if !t.Expiration.IsZero then tags ++ [["exp", FormatInt t.Expiration.Unix]] else tags
  let tags :=
    if !t.NotBefore.IsZero then tags ++ [["nbf", FormatInt t.NotBefore.Unix]] else tags
  iter.foldl (fun tags entry => tags ++ [entryTag entry]) tags

/-- The entries of a `Claims` map; the nil map has none. -/
def claimEntries (claims : Option ClaimMap) : ClaimMap := claims.getD []

/-- A possible iteration order of `range claims`: every entry once, in any order. -/
def RangeOrder (claims : Option ClaimMap) (iter : ClaimMap) : Prop :=
  iter.Perm (claimEntries claims)

instance (claims : Option ClaimMap) (iter : ClaimMap) : Decidable (RangeOrder claims iter) := by
  unfold RangeOrder; exact inferInstance

/-- The invariant of a Go map: no key occurs twice. -/
def ClaimsValid (claims : Option ClaimMap) : Prop := ((claimEntries claims).map Prod.fst).Nodup

instance (claims : Option ClaimMap) : Decidable (ClaimsValid claims) := by
  unfold ClaimsValid; exact inferInstance

/-- Lookup `claims[k]` with the presence flag; every key is absent from the nil map. -/
def claimsGet (claims : Option ClaimMap) (k : String) : Option (List String) :=
  ClaimMap.get? (claimEntries claims) k

/-! ## event.go: `ExtractEventHTTP` -/

/-- Cut a string at every character that satisfies `p`: with `n` such characters there are
`n + 1` pieces, some of which may be empty. -/
def splitWhere (p : Char → Bool) (s : List Char) : List (List Char) :=
  match s with
  | [] => [[]]
  | c :: rest =>
    if p c then [] :: splitWhere p rest
    else
      match splitWhere p rest with
      | piece :: pieces => (c :: piece) :: pieces
      | [] => [[c]]

/-- The function `strings.Split(s, " ")`. -/
def stringsSplitSpace (s : String) : List String :=
  (splitWhere (fun c => c == ' ') s.data).map String.mk

/-- The function `ExtractEventHTTP` on the value `auth` of the Authorization header (the
empty string when the header is absent).  `DecodeString` stands for
`base64.RawURLEncoding.DecodeString` and `Unmarshal` for `json.Unmarshal` into an event; both
return `none` for an error.  The match on two parts is the test `len(parts) != 2`.  The result
is the event pointer (`none` for nil) and the error. -/
def ExtractEventHTTP (DecodeString : String → Option (List UInt8))
    (Unmarshal : List UInt8 → Option Event) (auth : String) : Option Event × Option Error :=
  if auth = "" then (none, some Error.ErrMissingHeader)
  else
    match stringsSplitSpace auth with
    | [scheme, payload] =>
      if scheme ≠ "Nostr" then (none, some Error.ErrInvalidHeader)
      else
        match DecodeString payload with
        | none => (none, some Error.ErrInvalidHeader)
        | some bytes =>
          match Unmarshal bytes with
          | none => (none, some Error.ErrInvalidEventJSON)
          | some event => (some event, none)
    | _ => (none, some Error.ErrInvalidHeader)

/-! ## Further vocabulary -/

/-- The name of the custom claim number `i`: the letter a, `i + 1` times. -/
def claimName (i : Nat) : String := String.mk (List.replicate (i + 1) 'a')

/-- An event of kind `kind` created at Unix second 0 that carries `n` custom claim tags with
`n` different names. -/
def manyClaimsEvent (kind : Int) (n : Nat) : Event :=
  { ID := "id", PubKey := "pubkey", CreatedAt := 0, Kind := kind,
    Tags := (List.range n).map (fun i => [claimName i, "v"]), Content := "", Sig := "" }

/-- An event whose exp tag holds the Unix second after `MaxTime`. -/
def lateEvent : Event :=
  { ID := "id", PubKey := "pubkey", CreatedAt := 420, Kind := 1,
    Tags := [["exp", "253402300800"]], Content := "", Sig := "" }

/-- A token with an audience and the widest window. -/
def audienceToken : Token := { wideToken with Audience := ["identifier"] }

/-- An identifier check that always passes. -/
def checkIDPass (_ : Event) : Bool := true

/-- A signature check that always passes. -/
def checkSignaturePass (_ : Event) : Bool × Option String := (true, none)

/-- White space in the sense of `unicode.IsSpace` for Latin-1: space, tab, line feed, vertical
tab, form feed, carriage return, next line and no-break space. -/
def isSpace (c : Char) : Bool :=
  c == ' ' || (decide (9 ≤ c.toNat) && decide (c.toNat ≤ 13)) || c.toNat == 133 || c.toNat == 160

/-- The white space separated tokens of a string: its maximal runs of characters that are not
white space. -/
def fields (s : String) : List String :=
  ((splitWhere isSpace s.data).filter (fun piece => !piece.isEmpty)).map String.mk

/-- A decoder that accepts the empty string only, and decodes it to no bytes, as
`base64.RawURLEncoding.DecodeString` does. -/
def decodeEmptyOnly (s : String) : Option (List UInt8) := if s = "" then some [] else none

/-- A decoder that accepts every string. -/
def decodeAll (_ : String) : Option (List UInt8) := some []

/-- A JSON decoder that refuses its input, as `json.Unmarshal` refuses the empty input. -/
def unmarshalNothing (_ : List UInt8) : Option Event := none

/-- The classification of a header that consists of `scheme`, one space and `payload`. -/
def classifyParts (DecodeString : String → Option (List UInt8))
    (Unmarshal : List UInt8 → Option Event) (scheme payload : String) :
    Option Event × Option Error :=
  if scheme ≠ "Nostr" then (none, some Error.ErrInvalidHeader)
  else
    match DecodeString payload with
    | none => (none, some Error.ErrInvalidHeader)
    | some bytes =>
      match Unmarshal bytes with
      | none => (none, some Error.ErrInvalidEventJSON)
      | some event => (some event, none)

/-- The registered claim tags of a token: the six possible tags in the order iss, sub, aud,
iat, exp, nbf, each present when its field is set (a non-empty string or list, a time other
than the zero time). -/
def registeredTags (t : Token) : List (List String) :=
  [ (if t.Issuer ≠ "" then some ["iss", t.Issuer] else none),
    (if t.Subject ≠ "" then some ["sub", t.Subject] else none),
    (if t.Audience ≠ [] then some ("aud" :: t.Audience) else none),
    (if t.IssuedAt ≠ Time.zero then some ["iat", FormatInt t.IssuedAt.Unix] else none),
    (if t.Expiration ≠ Time.zero then some ["exp", FormatInt t.Expiration.Unix] else none),
    (if t.NotBefore ≠ Time.zero then some ["nbf", FormatInt t.NotBefore.Unix] else none)
  ].reduceOption

/-- An iteration order of the claims of `customToken`, other than the order of insertion. -/
def customOrder : ClaimMap := [("permission", ["read", "write"]), ("role", ["user", "guest"])]

/-- A time without a fraction of a second. -/
def WholeSecond (x : Time) : Prop := x.nsec = 0

instance (x : Time) : Decidable (WholeSecond x) := by
  unfold WholeSecond; exact inferInstance

/-- Every key of the claims is outside the registered names and maps to a non-empty list. -/
def CustomClaims (claims : Option ClaimMap) : Prop :=
  ∀ entry ∈ claimEntries claims, entry.1 ∉ registeredNames ∧ entry.2 ≠ []

instance (claims : Option ClaimMap) : Decidable (CustomClaims claims) := by
  unfold CustomClaims; exact inferInstance

/-- An event that carries the given tags. -/
def eventWith (tags : List (List String)) : Event :=
  { ID := "id", PubKey := "pubkey", CreatedAt := 420, Kind := 1, Tags := tags, Content := "",
    Sig := "" }

/-- The token of the parsing test with a custom claim called exp. -/
def expClaimToken : Token := { testToken with Claims := some [("exp", ["soon"])] }

/-- The token of the parsing test with a custom claim that has no value. -/
def emptyClaimToken : Token := { testToken with Claims := some [("role", [])] }

/-- The token of the parsing test, issued five nanoseconds after Unix second 420. -/
def fractionToken : Token := { testToken with IssuedAt := ⟨62135597220, 5⟩ }

/-- The token parsed from `customEvent`, without an issuer. -/
def anonymousToken : Token := { customToken with Issuer := "" }

/-! ## Arithmetic of the time model -/

theorem MinTime_eq : MinTime = ⟨62135596800, 0⟩ := by decide

theorem MaxTime_eq : MaxTime = ⟨315537897599, 0⟩ := by decide

theorem wrapInt64_of_isInt64 (x : Int) (h : IsInt64 x) : wrapInt64 x = x := by
  unfold IsInt64 MinInt64 MaxInt64 at h
  unfold wrapInt64
  omega

theorem Duration.neg_eq (d : Int) (h : IsInt64 d) (hd : d ≠ MinInt64) :
    (Duration.neg d : Int) = -d := by
  unfold IsInt64 MinInt64 MaxInt64 at h
  unfold MinInt64 at hd
  unfold Duration.neg wrapInt64
  omega

theorem Duration.neg_min : Duration.neg MinInt64 = MinInt64 := by decide

theorem tdiv_tmod_cases (d : Int) :
    (0 ≤ d ∧ Int.tdiv d 1000000000 = d / 1000000000 ∧ Int.tmod d 1000000000 = d % 1000000000) ∨
    (d < 0 ∧ Int.tdiv d 1000000000 = -((-d) / 1000000000) ∧
      Int.tmod d 1000000000 = -((-d) % 1000000000)) := by
  have hsum := Int.tmod_add_tdiv d 1000000000
  by_cases h : 0 ≤ d
  · left
    have h1 : Int.tdiv d 1000000000 = d / 1000000000 := Int.tdiv_eq_ediv h (by omega)
    refine ⟨h, h1, ?_⟩
    omega
  · right
    have h0 : Int.tdiv (-d) 1000000000 = (-d) / 1000000000 :=
      Int.tdiv_eq_ediv (by omega) (by omega)
    have h1 : Int.tdiv d 1000000000 = -((-d) / 1000000000) := by
      have h2 := Int.neg_tdiv (-d) 1000000000
      rw [Int.neg_neg] at h2
      rw [h2, h0]
    refine ⟨by omega, h1, ?_⟩
    omega

theorem Time.Before_iff (t u : Time) (ht : t.Valid) (hu : u.Valid) :
    t.Before u = true ↔ t.nanos < u.nanos := by
  obtain ⟨_, ht0, ht1⟩ := ht
  obtain ⟨_, hu0, hu1⟩ := hu
  simp only [Time.Before, Time.nanos, Bool.or_eq_true, Bool.and_eq_true, decide_eq_true_eq,
    beq_iff_eq]
  omega

theorem Time.After_iff (t u : Time) (ht : t.Valid) (hu : u.Valid) :
    t.After u = true ↔ u.nanos < t.nanos := by
  obtain ⟨_, ht0, ht1⟩ := ht
  obtain ⟨_, hu0, hu1⟩ := hu
  simp only [Time.After, Time.nanos, Bool.or_eq_true, Bool.and_eq_true, decide_eq_true_eq,
    beq_iff_eq]
  omega

/-- When the mathematical sum stays inside the representable seconds, `Time.Add` is exact. -/
theorem Time.Add_exact (t : Time) (d : Int) (ht : t.Valid) (hd : IsInt64 d)
    (hlo : MinInt64 * 1000000000 ≤ t.nanos + d)
    (hhi : t.nanos + d < (MaxInt64 + 1) * 1000000000) :
    (t.Add d).Valid ∧ (t.Add d).nanos = t.nanos + d := by
  obtain ⟨⟨hs0, hs1⟩, ht0, ht1⟩ := ht
  simp only [IsInt64, MinInt64, MaxInt64, Time.nanos] at hd hs0 hs1 hlo hhi
  rcases tdiv_tmod_cases d with ⟨h0, hq, hr⟩ | ⟨h0, hq, hr⟩ <;>
  · simp only [Time.Add, Time.addSec, Time.Valid, Time.nanos, IsInt64, MinInt64, MaxInt64,
      wrapInt64, hq, hr]
    split_ifs <;> simp only [decide_eq_decide] at * <;> omega

theorem MinTime_valid : MinTime.Valid := by decide

theorem MaxTime_valid : MaxTime.Valid := by decide

theorem not_inBounds_iff (x : Time) (hx : x.Valid) :
    (x.Before MinTime || x.After MaxTime) = true ↔ ¬ InBounds x := by
  rw [Bool.or_eq_true, Time.Before_iff x MinTime hx MinTime_valid,
    Time.After_iff x MaxTime hx MaxTime_valid, InBounds]
  omega

theorem ValidateTimeBounds_eq_firstTimeViolation (t : Token) (h : t.Valid) :
    ValidateTimeBounds t = firstTimeViolation t := by
  obtain ⟨hi, he, hn⟩ := h
  have h1 := not_inBounds_iff t.IssuedAt hi
  have h2 := not_inBounds_iff t.Expiration he
  have h3 := not_inBounds_iff t.NotBefore hn
  have h4 := Time.After_iff t.NotBefore t.Expiration hn he
  unfold ValidateTimeBounds firstTimeViolation
  by_cases c1 : InBounds t.IssuedAt
  · by_cases c2 : InBounds t.Expiration
    · by_cases c3 : InBounds t.NotBefore
      · by_cases c4 : t.Expiration.nanos < t.NotBefore.nanos
        · have e1 : ¬ (t.IssuedAt.Before MinTime || t.IssuedAt.After MaxTime) = true := by
            rw [h1]; exact not_not.mpr c1
          have e2 : ¬ (t.Expiration.Before MinTime || t.Expiration.After MaxTime) = true := by
            rw [h2]; exact not_not.mpr c2
          have e3 : ¬ (t.NotBefore.Before MinTime || t.NotBefore.After MaxTime) = true := by
            rw [h3]; exact not_not.mpr c3
          have e4 : t.NotBefore.After t.Expiration = true := h4.mpr c4
          simp [e1, e2, e3, e4, c1, c2, c3, c4]
        · have e1 : ¬ (t.IssuedAt.Before MinTime || t.IssuedAt.After MaxTime) = true := by
            rw [h1]; exact not_not.mpr c1
          have e2 : ¬ (t.Expiration.Before MinTime || t.Expiration.After MaxTime) = true := by
            rw [h2]; exact not_not.mpr c2
          have e3 : ¬ (t.NotBefore.Before MinTime || t.NotBefore.After MaxTime) = true := by
            rw [h3]; exact not_not.mpr c3
          have e4 : ¬ t.NotBefore.After t.Expiration = true := fun hh => c4 (h4.mp hh)
          simp [e1, e2, e3, e4, c1, c2, c3, c4]
      · have e1 : ¬ (t.IssuedAt.Before MinTime || t.IssuedAt.After MaxTime) = true := by
          rw [h1]; exact not_not.mpr c1
        have e2 : ¬ (t.Expiration.Before MinTime || t.Expiration.After MaxTime) = true := by
          rw [h2]; exact not_not.mpr c2
        have e3 : (t.NotBefore.Before MinTime || t.NotBefore.After MaxTime) = true := h3.mpr c3
        simp [e1, e2, e3, c1, c2, c3]
    · have e1 : ¬ (t.IssuedAt.Before MinTime || t.IssuedAt.After MaxTime) = true := by
        rw [h1]; exact not_not.mpr c1
      have e2 : (t.Expiration.Before MinTime || t.Expiration.After MaxTime) = true := h2.mpr c2
      simp [e1, e2, c1, c2]
  · have e1 : (t.IssuedAt.Before MinTime || t.IssuedAt.After MaxTime) = true := h1.mpr c1
    simp [e1, c1]

theorem ValidateTimeBounds_eq_none_iff (t : Token) (h : t.Valid) :
    ValidateTimeBounds t = none ↔
      InBounds t.IssuedAt ∧ InBounds t.Expiration ∧ InBounds t.NotBefore ∧
        t.NotBefore.nanos ≤ t.Expiration.nanos := by
  rw [ValidateTimeBounds_eq_firstTimeViolation t h]
  unfold firstTimeViolation
  split_ifs with c1 c2 c3 c4 <;> simp_all

theorem before_lower_bound_iff (x now : Time) (skew : Int) (hx : x.Valid) (hnow : now.Valid)
    (hs : IsInt64 skew) (hmin : skew ≠ MinInt64) (hr : Representable (x.nanos - skew)) :
    now.Before (x.Add (Duration.neg skew)) = true ↔ now.nanos < x.nanos - skew := by
  rw [Duration.neg_eq skew hs hmin]
  have hneg : IsInt64 (-skew) := by
    simp only [IsInt64, MinInt64, MaxInt64] at hs hmin ⊢
    omega
  have hr1 : MinInt64 * 1000000000 ≤ x.nanos + -skew := by have := hr.1; omega
  have hr2 : x.nanos + -skew < (MaxInt64 + 1) * 1000000000 := by have := hr.2; omega
  obtain ⟨hv, he⟩ := Time.Add_exact x (-skew) hx hneg hr1 hr2
  rw [Time.Before_iff now _ hnow hv, he]
  omega

theorem after_upper_bound_iff (x now : Time) (skew : Int) (hx : x.Valid) (hnow : now.Valid)
    (hs : IsInt64 skew) (hr : Representable (x.nanos + skew)) :
    now.After (x.Add skew) = true ↔ x.nanos + skew < now.nanos := by
  obtain ⟨hv, he⟩ := Time.Add_exact x skew hx hs hr.1 hr.2
  rw [Time.After_iff now _ hnow hv, he]

/-- The documented meaning of `IsActiveAt`, for every skew other than the smallest int64 and
as long as the two bounds of the window are representable instants. -/
theorem Token.IsActiveAt_iff (t : Token) (now : Time) (skew : Int)
    (ht : t.Valid) (hnow : now.Valid) (hs : IsInt64 skew) (hmin : skew ≠ MinInt64)
    (hlo : Representable (t.NotBefore.nanos - skew))
    (hhi : Representable (t.Expiration.nanos + skew)) :
    t.IsActiveAt now skew = true ↔
      t.NotBefore.nanos - skew ≤ now.nanos ∧ now.nanos ≤ t.Expiration.nanos + skew := by
  have h1 := before_lower_bound_iff t.NotBefore now skew ht.2.2 hnow hs hmin hlo
  have h2 := after_upper_bound_iff t.Expiration now skew ht.2.1 hnow hs hhi
  unfold Token.IsActiveAt
  by_cases c1 : now.Before (t.NotBefore.Add (Duration.neg skew)) = true
  · have := h1.mp c1
    simp only [c1, if_true]
    constructor
    · intro h; cases h
    · intro h; omega
  · have n1 : ¬ now.nanos < t.NotBefore.nanos - skew := fun h => c1 (h1.mpr h)
    by_cases c2 : now.After (t.Expiration.Add skew) = true
    · have := h2.mp c2
      simp only [c1, c2, if_true]
      constructor
      · intro h; simp at h
      · intro h; omega
    · have n2 : ¬ t.Expiration.nanos + skew < now.nanos := fun h => c2 (h2.mpr h)
      simp only [c1, c2]
      constructor
      · intro _; omega
      · intro _; simp

theorem inBounds_representable (x : Time) (skew : Int) (hx : InBounds x) (hs : IsInt64 skew) :
    Representable (x.nanos - skew) ∧ Representable (x.nanos + skew) := by
  simp only [InBounds, MinTime_eq, MaxTime_eq, Time.nanos] at hx
  simp only [IsInt64, MinInt64, MaxInt64] at hs
  simp only [Representable, MinInt64, MaxInt64, Time.nanos]
  omega

theorem slicesContains_iff (s : List String) (v : String) :
    slicesContains s v = true ↔ v ∈ s := by
  induction s with
  | nil => simp [slicesContains]
  | cons x rest ih =>
    unfold slicesContains
    by_cases h : x = v
    · simp [h]
    · have h2 : ¬ v = x := fun e => h e.symm
      simp [h, h2, ih]

/-- For every clock skew other than the smallest int64 the strict policy returns the first
violation in the documented order. -/
theorem StrictValidator.Validate_eq_firstViolation (v : StrictValidator) (now : Time)
    (t : Token) (ht : t.Valid) (hnow : now.Valid) (hs : IsInt64 v.ClockSkew)
    (hmin : v.ClockSkew ≠ MinInt64) :
    v.Validate now t = firstViolation v now t := by
  unfold StrictValidator.Validate firstViolation
  by_cases c0 : t.ID = ""
  · simp [c0]
  · simp only [c0, if_false]
    cases hb : ValidateTimeBounds t with
    | some err => simp
    | none =>
      have hin := (ValidateTimeBounds_eq_none_iff t ht).mp hb
      have h1 := before_lower_bound_iff t.NotBefore now v.ClockSkew ht.2.2 hnow hs hmin
        (inBounds_representable _ _ hin.2.2.1 hs).1
      have h2 := after_upper_bound_iff t.Expiration now v.ClockSkew ht.2.1 hnow hs
        (inBounds_representable _ _ hin.2.1 hs).2
      have h3 := slicesContains_iff t.Audience v.Identifier
      simp only [ne_eq, not_true_eq_false, if_false]
      by_cases c1 : now.Before (t.NotBefore.Add (Duration.neg v.ClockSkew)) = true
      · simp [c1, h1.mp c1]
      · have n1 : ¬ now.nanos < t.NotBefore.nanos - v.ClockSkew := fun h => c1 (h1.mpr h)
        by_cases c2 : now.After (t.Expiration.Add v.ClockSkew) = true
        · have := h2.mp c2
          simp [c1, c2, n1, this]
        · have n2 : ¬ t.Expiration.nanos + v.ClockSkew < now.nanos := fun h => c2 (h2.mpr h)
          cases ha : t.Audience with
          | nil => simp [c1, c2, n1, n2]
          | cons a rest =>
            rw [ha] at h3
            by_cases c3 : slicesContains (a :: rest) v.Identifier = true
            · have := h3.mp c3
              simp [c1, c2, n1, n2, c3, this]
            · have n3 : ¬ v.Identifier ∈ a :: rest := fun h => c3 (h3.mpr h)
              simp [c1, c2, n1, n2, c3, n3]

/-- For every clock skew other than the smallest int64 the strict policy accepts exactly the
tokens with an identifier, sound time bounds, a window that contains `now` and an audience
that is empty or contains the identifier of the validator. -/
theorem StrictValidator.Validate_eq_none_iff (v : StrictValidator) (now : Time)
    (t : Token) (ht : t.Valid) (hnow : now.Valid) (hs : IsInt64 v.ClockSkew)
    (hmin : v.ClockSkew ≠ MinInt64) :
    v.Validate now t = none ↔
      t.ID ≠ "" ∧ ValidateTimeBounds t = none ∧
      (t.NotBefore.nanos - v.ClockSkew ≤ now.nanos ∧
        now.nanos ≤ t.Expiration.nanos + v.ClockSkew) ∧
      (t.Audience = [] ∨ v.Identifier ∈ t.Audience) := by
  rw [StrictValidator.Validate_eq_firstViolation v now t ht hnow hs hmin]
  unfold firstViolation
  by_cases c0 : t.ID = ""
  · simp [c0]
  · by_cases c1 : ValidateTimeBounds t = none
    · by_cases c2 : now.nanos < t.NotBefore.nanos - v.ClockSkew
      · have : ¬ t.NotBefore.nanos - v.ClockSkew ≤ now.nanos := by omega
        simp [c0, c1, c2, this]
      · have c2b : t.NotBefore.nanos - v.ClockSkew ≤ now.nanos := by omega
        by_cases c3 : now.nanos > t.Expiration.nanos + v.ClockSkew
        · have : ¬ now.nanos ≤ t.Expiration.nanos + v.ClockSkew := by omega
          simp [c0, c1, c2, c3, this]
        · have c3b : now.nanos ≤ t.Expiration.nanos + v.ClockSkew := by omega
          by_cases c4 : t.Audience = []
          · simp [c0, c1, c2, c3, c2b, c3b, c4]
          · by_cases c5 : v.Identifier ∈ t.Audience
            · simp [c0, c1, c2, c3, c2b, c3b, c4, c5]
            · simp [c0, c1, c2, c3, c2b, c3b, c4, c5]
    · simp [c0, c1]

/-! ## The loop of `ParseToken` -/

theorem parseUnixTime_ok (v : String) (h : (ParseInt v).2 = none) :
    parseUnixTime v = (timeOf v, none) := by
  unfold parseUnixTime timeOf
  rcases hp : ParseInt v with ⟨n, err⟩
  rw [hp] at h
  simp only at h
  subst h
  rfl

theorem parseUnixTime_error (v : String) (h : (ParseInt v).2 ≠ none) :
    ∃ err, parseUnixTime v = (Time.zero, some (Error.InvalidUnixTime err)) := by
  unfold parseUnixTime
  rcases hp : ParseInt v with ⟨n, err⟩
  rw [hp] at h
  cases err with
  | none => exact absurd rfl h
  | some x => exact ⟨x, rfl⟩

theorem parseTag_of_bad (token : Token) (tag : List String) (h : isBadTimeTag tag = true) :
    ∃ cause, parseTag token tag = Except.error (Error.InvalidUnixTime cause) := by
  match tag with
  | [] => simp [isBadTimeTag] at h
  | [_] => simp [isBadTimeTag] at h
  | n :: v :: rest =>
    simp only [isBadTimeTag, Bool.and_eq_true, decide_eq_true_eq] at h
    obtain ⟨hn, hv⟩ := h
    obtain ⟨err, he⟩ := parseUnixTime_error v hv
    rcases hn with hn | hn | hn <;> subst hn <;>
      exact ⟨err, by simp [parseTag, he]⟩

theorem parseTag_of_not_bad (token : Token) (tag : List String)
    (h : isBadTimeTag tag = false) : parseTag token tag = Except.ok (applyTag token tag) := by
  match tag with
  | [] => simp [parseTag, applyTag, tagValue, isTag, claimStep, isCustomTag]
  | [_] => simp [parseTag, applyTag, tagValue, isTag, claimStep, isCustomTag]
  | n :: v :: rest =>
    by_cases h1 : n = "iss"
    · subst h1
      simp [parseTag, applyTag, tagValue, isTag, claimStep, isCustomTag, registeredNames]
    by_cases h2 : n = "sub"
    · subst h2
      simp [parseTag, applyTag, tagValue, isTag, claimStep, isCustomTag, registeredNames]
    by_cases h3 : n = "aud"
    · subst h3
      simp [parseTag, applyTag, tagValue, isTag, claimStep, isCustomTag, registeredNames]
    by_cases h4 : n = "iat"
    · subst h4
      have hv : (ParseInt v).2 = none := by
        simpa [isBadTimeTag] using h
      simp [parseTag, applyTag, tagValue, isTag, claimStep, isCustomTag, registeredNames,
        parseUnixTime_ok v hv]
    by_cases h5 : n = "exp"
    · subst h5
      have hv : (ParseInt v).2 = none := by
        simpa [isBadTimeTag] using h
      simp [parseTag, applyTag, tagValue, isTag, claimStep, isCustomTag, registeredNames,
        parseUnixTime_ok v hv]
    by_cases h6 : n = "nbf"
    · subst h6
      have hv : (ParseInt v).2 = none := by
        simpa [isBadTimeTag] using h
      simp [parseTag, applyTag, tagValue, isTag, claimStep, isCustomTag, registeredNames,
        parseUnixTime_ok v hv]
    simp [parseTag, applyTag, tagValue, isTag, claimStep, isCustomTag, registeredNames,
      h1, h2, h3, h4, h5, h6]

theorem ParseTokenLoop_of_no_bad (tags : List (List String)) (token : Token)
    (h : ∀ tag ∈ tags, isBadTimeTag tag = false) :
    ParseTokenLoop tags token = (tags.foldl applyTag token, none) := by
  induction tags generalizing token with
  | nil => rfl
  | cons tag rest ih =>
    have h1 := parseTag_of_not_bad token tag (h tag (List.mem_cons_self _ _))
    unfold ParseTokenLoop
    rw [h1]
    simp only [List.foldl_cons]
    exact ih _ (fun x hx => h x (List.mem_cons_of_mem _ hx))

theorem ParseTokenLoop_of_bad (tags : List (List String)) (token : Token)
    (h : ∃ tag ∈ tags, isBadTimeTag tag = true) :
    ∃ cause, ParseTokenLoop tags token = (Token.zero, some (Error.InvalidUnixTime cause)) := by
  induction tags generalizing token with
  | nil =>
    obtain ⟨tag, hmem, _⟩ := h
    cases hmem
  | cons tag rest ih =>
    unfold ParseTokenLoop
    cases hb : isBadTimeTag tag with
    | true =>
      obtain ⟨err, he⟩ := parseTag_of_bad token tag hb
      exact ⟨err, by rw [he]⟩
    | false =>
      rw [parseTag_of_not_bad token tag hb]
      apply ih
      obtain ⟨x, hx, hxb⟩ := h
      rcases List.mem_cons.mp hx with e | hm
      · subst e
        rw [hb] at hxb
        cases hxb
      · exact ⟨x, hm, hxb⟩

theorem ParseToken_eq_loop (e : Event) :
    ParseToken e = ParseTokenLoop e.Tags (initialToken e) := rfl

/-- Success of `ParseToken` and its result, in terms of the tags. -/
theorem ParseToken_ok_iff (e : Event) (t : Token) :
    ParseToken e = (t, none) ↔
      (∀ tag ∈ e.Tags, isBadTimeTag tag = false) ∧ t = e.Tags.foldl applyTag (initialToken e) := by
  rw [ParseToken_eq_loop]
  constructor
  · intro h
    by_cases hb : ∃ tag ∈ e.Tags, isBadTimeTag tag = true
    · obtain ⟨err, he⟩ := ParseTokenLoop_of_bad e.Tags (initialToken e) hb
      rw [he] at h
      cases h
    · have hall : ∀ tag ∈ e.Tags, isBadTimeTag tag = false := by
        intro tag hm
        cases hx : isBadTimeTag tag with
        | false => rfl
        | true => exact absurd ⟨tag, hm, hx⟩ hb
      rw [ParseTokenLoop_of_no_bad _ _ hall] at h
      exact ⟨hall, (Prod.mk.inj h).1.symm⟩
  · rintro ⟨hall, ht⟩
    rw [ParseTokenLoop_of_no_bad _ _ hall, ht]

theorem ParseTokenLoop_skip (tags : List (List String)) (token : Token)
    (h : ∀ tag ∈ tags, tag.length < 2) : ParseTokenLoop tags token = (token, none) := by
  induction tags with
  | nil => rfl
  | cons tag rest ih =>
    have h1 : parseTag token tag = Except.ok token := by
      have hl := h tag (List.mem_cons_self _ _)
      match tag, hl with
      | [], _ => rfl
      | [_], _ => rfl
      | _ :: _ :: _, hl => simp only [List.length_cons] at hl; omega
    unfold ParseTokenLoop
    rw [h1]
    exact ih (fun x hx => h x (List.mem_cons_of_mem _ hx))

theorem isBadTimeTag_iff (tag : List String) :
    isBadTimeTag tag = true ↔
      ∃ name value rest, tag = name :: value :: rest ∧
        (name = "iat" ∨ name = "exp" ∨ name = "nbf") ∧ (ParseInt value).2 ≠ none := by
  match tag with
  | [] => simp [isBadTimeTag]
  | [_] => simp [isBadTimeTag]
  | n :: v :: rest =>
    simp only [isBadTimeTag, Bool.and_eq_true, decide_eq_true_eq]
    constructor
    · rintro ⟨h1, h2⟩
      exact ⟨n, v, rest, rfl, h1, h2⟩
    · rintro ⟨name, value, r, e, h1, h2⟩
      injection e with e1 e2
      injection e2 with e2 e3
      subst e1 e2
      exact ⟨h1, h2⟩

theorem Unix_Unix (s : Int) (h : IsInt64 s) : (Unix s 0).Unix = s ∧ (Unix s 0).nsec = 0 := by
  simp only [IsInt64, MinInt64, MaxInt64] at h
  have hu : Time.unixToInternal = 62135596800 := by decide
  simp only [Unix, Time.Unix, Time.internalToUnix, hu, wrapInt64]
  constructor
  · simp only [lt_self_iff_false, ge_iff_le, false_or]
    rw [if_neg (by omega)]
    simp only
    omega
  · simp

theorem wrapInt64_isInt64 (x : Int) : IsInt64 (wrapInt64 x) := by
  simp only [IsInt64, MinInt64, MaxInt64, wrapInt64]
  omega

/-- The integer returned by `strconv.ParseInt` is an int64. -/
theorem ParseInt_isInt64 (s : String) : IsInt64 (ParseInt s).1 := by
  unfold ParseInt
  split_ifs with h0
  · decide
  · simp only
    split
    · decide
    · split_ifs
      · decide
      · decide
      · exact wrapInt64_isInt64 _
      · exact wrapInt64_isInt64 _

/-! ## The registered fields after the loop -/

/-- A field that every tag either leaves alone or overwrites ends up with the value of the
last tag that overwrites it. -/
theorem foldl_applyTag_last {α : Type} (f : Token → α) (u : List String → Option α)
    (hstep : ∀ token tag, f (applyTag token tag) = (u tag).getD (f token))
    (tags : List (List String)) (token : Token) :
    f (tags.foldl applyTag token) = ((tags.filterMap u).getLast?).getD (f token) := by
  induction tags generalizing token with
  | nil => rfl
  | cons tag rest ih =>
    rw [List.foldl_cons, ih, hstep, List.filterMap_cons]
    cases hu : u tag with
    | none => rfl
    | some b => simp [List.getLast?_cons]

theorem foldl_applyTag_ID (tags : List (List String)) (token : Token) :
    (tags.foldl applyTag token).ID = token.ID := by
  induction tags generalizing token with
  | nil => rfl
  | cons tag rest ih => rw [List.foldl_cons, ih]; rfl

theorem foldl_applyTag_Issuer (tags : List (List String)) (token : Token) :
    (tags.foldl applyTag token).Issuer = (lastValue "iss" tags).getD token.Issuer :=
  foldl_applyTag_last Token.Issuer (tagValue "iss") (fun _ _ => rfl) tags token

theorem foldl_applyTag_Subject (tags : List (List String)) (token : Token) :
    (tags.foldl applyTag token).Subject = (lastValue "sub" tags).getD token.Subject :=
  foldl_applyTag_last Token.Subject (tagValue "sub") (fun _ _ => rfl) tags token

theorem getLast?_filterMap_map (name : String) (tags : List (List String)) :
    (tags.filterMap (fun tag => (tagValue name tag).map timeOf)).getLast? =
      (lastValue name tags).map timeOf := by
  rw [lastValue, ← List.getLast?_map, List.map_filterMap]

theorem foldl_applyTag_IssuedAt (tags : List (List String)) (token : Token) :
    (tags.foldl applyTag token).IssuedAt =
      ((lastValue "iat" tags).map timeOf).getD token.IssuedAt := by
  rw [← getLast?_filterMap_map]
  exact foldl_applyTag_last Token.IssuedAt _ (fun _ _ => rfl) tags token

theorem foldl_applyTag_Expiration (tags : List (List String)) (token : Token) :
    (tags.foldl applyTag token).Expiration =
      ((lastValue "exp" tags).map timeOf).getD token.Expiration := by
  rw [← getLast?_filterMap_map]
  exact foldl_applyTag_last Token.Expiration _ (fun _ _ => rfl) tags token

theorem foldl_applyTag_NotBefore (tags : List (List String)) (token : Token) :
    (tags.foldl applyTag token).NotBefore =
      ((lastValue "nbf" tags).map timeOf).getD token.NotBefore := by
  rw [← getLast?_filterMap_map]
  exact foldl_applyTag_last Token.NotBefore _ (fun _ _ => rfl) tags token

theorem foldl_applyTag_Audience (tags : List (List String)) (token : Token) :
    (tags.foldl applyTag token).Audience =
      token.Audience ++ (tags.filter (isTag "aud")).flatMap List.tail := by
  induction tags generalizing token with
  | nil => simp
  | cons tag rest ih =>
    rw [List.foldl_cons, ih, List.filter_cons]
    cases h : isTag "aud" tag <;> simp [applyTag, h]

theorem foldl_applyTag_Claims (tags : List (List String)) (token : Token) :
    (tags.foldl applyTag token).Claims = tags.foldl claimStep token.Claims := by
  induction tags generalizing token with
  | nil => rfl
  | cons tag rest ih => rw [List.foldl_cons, ih]; rfl

/-- A value found by `lastValue` is the second element of a tag of the list. -/
theorem lastValue_mem (name v : String) (tags : List (List String))
    (h : lastValue name tags = some v) : ∃ rest, (name :: v :: rest) ∈ tags := by
  have hm := List.mem_of_getLast?_eq_some h
  obtain ⟨tag, htag, hv⟩ := List.mem_filterMap.mp hm
  match tag, hv with
  | n :: w :: rest, hv =>
    simp only [tagValue] at hv
    by_cases hn : n = name
    · rw [if_pos hn] at hv
      cases hv
      subst hn
      exact ⟨rest, htag⟩
    · rw [if_neg hn] at hv
      cases hv

theorem lastValue_eq_none_iff (name : String) (tags : List (List String)) :
    lastValue name tags = none ↔ ∀ tag ∈ tags, tagValue name tag = none := by
  rw [lastValue, List.getLast?_eq_none_iff, List.filterMap_eq_nil_iff]

/-! ## The custom claims after the loop -/

theorem ClaimMap.keys_set (m : ClaimMap) (k : String) (v : List String) :
    (ClaimMap.set m k v).map Prod.fst =
      if k ∈ m.map Prod.fst then m.map Prod.fst else m.map Prod.fst ++ [k] := by
  induction m with
  | nil => simp [ClaimMap.set]
  | cons p rest ih =>
    obtain ⟨k1, v1⟩ := p
    unfold ClaimMap.set
    by_cases h : k1 = k
    · subst h
      simp
    · have h2 : ¬ k = k1 := fun e => h e.symm
      simp only [if_neg h, List.map_cons, ih, List.mem_cons, h2, false_or]
      split_ifs <;> simp

theorem ClaimMap.nodup_set (m : ClaimMap) (k : String) (v : List String)
    (h : (m.map Prod.fst).Nodup) : ((ClaimMap.set m k v).map Prod.fst).Nodup := by
  rw [ClaimMap.keys_set]
  split_ifs with hk
  · exact h
  · rw [List.nodup_append]
    refine ⟨h, List.nodup_singleton k, ?_⟩
    intro x hx hx2
    rw [List.mem_singleton] at hx2
    subst hx2
    exact hk hx

theorem ClaimMap.mem_set_iff (m : ClaimMap) (k : String) (v : List String)
    (h : (m.map Prod.fst).Nodup) (n : String) (vals : List String) :
    (n, vals) ∈ ClaimMap.set m k v ↔ (n = k ∧ vals = v) ∨ (n ≠ k ∧ (n, vals) ∈ m) := by
  induction m with
  | nil => simp [ClaimMap.set]
  | cons p rest ih =>
    obtain ⟨k1, v1⟩ := p
    rw [List.map_cons, List.nodup_cons] at h
    obtain ⟨hk1, hrest⟩ := h
    unfold ClaimMap.set
    by_cases hk : k1 = k
    · subst hk
      simp only [if_true, List.mem_cons, Prod.mk.injEq]
      constructor
      · rintro (⟨e1, e2⟩ | hm)
        · exact Or.inl ⟨e1, e2⟩
        · refine Or.inr ⟨?_, Or.inr hm⟩
          intro e
          have hmem : n ∈ rest.map Prod.fst := List.mem_map_of_mem Prod.fst hm
          rw [e] at hmem
          exact hk1 hmem
      · rintro (⟨e1, e2⟩ | ⟨hne, ⟨e1, _⟩ | hm⟩)
        · exact Or.inl ⟨e1, e2⟩
        · exact absurd e1 hne
        · exact Or.inr hm
    · simp only [if_neg hk, List.mem_cons, Prod.mk.injEq, ih hrest]
      constructor
      · rintro (⟨e1, e2⟩ | h1 | ⟨hne, hm⟩)
        · refine Or.inr ⟨?_, Or.inl ⟨e1, e2⟩⟩
          rw [e1]
          exact hk
        · exact Or.inl h1
        · exact Or.inr ⟨hne, Or.inr hm⟩
      · rintro (h1 | ⟨hne, h2 | hm⟩)
        · exact Or.inr (Or.inl h1)
        · exact Or.inl h2
        · exact Or.inr (Or.inr ⟨hne, hm⟩)

theorem ClaimMap.get?_eq_some_iff (m : ClaimMap) (h : (m.map Prod.fst).Nodup) (n : String)
    (vals : List String) : ClaimMap.get? m n = some vals ↔ (n, vals) ∈ m := by
  induction m with
  | nil => simp [ClaimMap.get?]
  | cons p rest ih =>
    obtain ⟨k1, v1⟩ := p
    rw [List.map_cons, List.nodup_cons] at h
    obtain ⟨hk1, hrest⟩ := h
    unfold ClaimMap.get?
    by_cases hk : k1 = n
    · subst hk
      simp only [if_true, Option.some.injEq, List.mem_cons, Prod.mk.injEq, true_and]
      constructor
      · intro e
        exact Or.inl e.symm
      · rintro (e | hm)
        · exact e.symm
        · have hmem : k1 ∈ rest.map Prod.fst := List.mem_map_of_mem Prod.fst hm
          exact absurd hmem hk1
    · have hk2 : ¬ n = k1 := fun e => hk e.symm
      simp only [if_neg hk, ih hrest, List.mem_cons, Prod.mk.injEq, hk2, false_and, false_or]

theorem lastRest_append_singleton (name : String) (tags : List (List String))
    (tag : List String) :
    lastRest name (tags ++ [tag]) =
      if isTag name tag then some tag.tail else lastRest name tags := by
  unfold lastRest
  rw [List.filter_append, List.getLast?_append]
  cases h : isTag name tag <;> simp [List.filter_cons, h]

theorem lastRest_isSome_iff (name : String) (tags : List (List String)) :
    (∃ vals, lastRest name tags = some vals) ↔ ∃ tag ∈ tags, isTag name tag = true := by
  unfold lastRest
  constructor
  · rintro ⟨vals, h⟩
    rw [Option.map_eq_some'] at h
    obtain ⟨tag, h1, _⟩ := h
    have := List.mem_of_getLast?_eq_some h1
    rw [List.mem_filter] at this
    exact ⟨tag, this.1, this.2⟩
  · rintro ⟨tag, hm, ht⟩
    have hne : tags.filter (isTag name) ≠ [] := by
      intro e
      have : tag ∈ tags.filter (isTag name) := List.mem_filter.mpr ⟨hm, ht⟩
      rw [e] at this
      cases this
    cases hl : (tags.filter (isTag name)).getLast? with
    | none => exact absurd (List.getLast?_eq_none_iff.mp hl) hne
    | some x => exact ⟨x.tail, rfl⟩

theorem isCustomTag_iff (tag : List String) :
    isCustomTag tag = true ↔ tag.headD "" ∉ registeredNames ∧ isTag (tag.headD "") tag = true := by
  match tag with
  | [] => simp [isCustomTag, isTag]
  | [_] => simp [isCustomTag, isTag]
  | n :: v :: rest => simp [isCustomTag, isTag]

theorem isTag_headD (name : String) (tag : List String) (h : isTag name tag = true) :
    tag.headD "" = name := by
  match tag, h with
  | n :: v :: rest, h => simpa [isTag] using h

/-- The custom claims built from a list of tags: absent exactly when no tag is custom, one
entry per key, and the entries are the last custom tag of every name. -/
theorem foldl_claimStep_spec (tags : List (List String)) :
    (tags.foldl claimStep none = none ↔ ∀ tag ∈ tags, isCustomTag tag = false) ∧
    (((tags.foldl claimStep none).getD []).map Prod.fst).Nodup ∧
    ∀ n vals, (n, vals) ∈ (tags.foldl claimStep none).getD [] ↔
      n ∉ registeredNames ∧ lastRest n tags = some vals := by
  induction tags using List.reverseRecOn with
  | nil => simp [lastRest]
  | append_singleton init tag ih =>
    obtain ⟨ih1, ih2, ih3⟩ := ih
    rw [List.foldl_append, List.foldl_cons, List.foldl_nil]
    cases hc : isCustomTag tag with
    | false =>
      have hstep : claimStep (init.foldl claimStep none) tag = init.foldl claimStep none := by
        simp [claimStep, hc]
      rw [hstep]
      refine ⟨?_, ih2, ?_⟩
      · rw [ih1]
        constructor
        · intro h x hx
          rcases List.mem_append.mp hx with hx | hx
          · exact h x hx
          · rw [List.mem_singleton] at hx
            rw [hx]
            exact hc
        · intro h x hx
          exact h x (List.mem_append_left _ hx)
      · intro n vals
        rw [ih3, lastRest_append_singleton]
        by_cases ht : isTag n tag = true
        · constructor
          · rintro ⟨hn, _⟩
            have hcust := (isCustomTag_iff tag).mpr
              ⟨by rw [isTag_headD n tag ht]; exact hn, by rw [isTag_headD n tag ht]; exact ht⟩
            rw [hc] at hcust
            cases hcust
          · rintro ⟨hn, _⟩
            have hcust := (isCustomTag_iff tag).mpr
              ⟨by rw [isTag_headD n tag ht]; exact hn, by rw [isTag_headD n tag ht]; exact ht⟩
            rw [hc] at hcust
            cases hcust
        · rw [if_neg ht]
    | true =>
      obtain ⟨hk, hkt⟩ := (isCustomTag_iff tag).mp hc
      have hstep : claimStep (init.foldl claimStep none) tag =
          some (ClaimMap.set ((init.foldl claimStep none).getD []) (tag.headD "") tag.tail) := by
        simp [claimStep, hc]
      rw [hstep]
      refine ⟨?_, ?_, ?_⟩
      · constructor
        · intro h
          cases h
        · intro h
          have := h tag (List.mem_append_right _ (List.mem_singleton_self tag))
          rw [hc] at this
          cases this
      · exact ClaimMap.nodup_set _ _ _ ih2
      · intro n vals
        simp only [Option.getD_some]
        rw [ClaimMap.mem_set_iff _ _ _ ih2, ih3, lastRest_append_singleton]
        by_cases hn : n = tag.headD ""
        · subst hn
          rw [if_pos hkt]
          constructor
          · rintro (⟨_, e⟩ | ⟨hne, _⟩)
            · exact ⟨hk, by rw [e]⟩
            · exact absurd rfl hne
          · rintro ⟨_, e⟩
            exact Or.inl ⟨rfl, (Option.some.inj e).symm⟩
        · have ht : ¬ isTag n tag = true := fun h => hn (isTag_headD n tag h).symm
          rw [if_neg ht]
          constructor
          · rintro (⟨e, _⟩ | ⟨_, h⟩)
            · exact absurd e hn
            · exact h
          · intro h
            exact Or.inr ⟨hn, h⟩

/-! ## `strconv.FormatInt` followed by `strconv.ParseInt` -/

theorem digitChar_spec (d : Nat) (h : d < 10) :
    ('0' ≤ digitChar d ∧ digitChar d ≤ '9') ∧ (digitChar d).toNat - '0'.toNat = d ∧
      digitChar d ≠ '+' ∧ digitChar d ≠ '-' := by
  interval_cases d <;> decide

theorem ParseUintLoop_digit (d n : Nat) (rest : List Char) (hd : d < 10)
    (hn : n * 10 + d ≤ MaxUint64) :
    ParseUintLoop (digitChar d :: rest) n = ParseUintLoop rest (n * 10 + d) := by
  obtain ⟨h1, h2, _, _⟩ := digitChar_spec d hd
  have hM : MaxUint64 = 18446744073709551615 := rfl
  rw [hM] at hn
  rw [ParseUintLoop]
  simp only [h1, and_self, if_true, h2, hM]
  rw [if_neg (by omega)]
  have hmod : (n * 10 + d) % 18446744073709551616 = n * 10 + d := by omega
  simp only [hmod]
  rw [if_neg (by omega)]

theorem formatDigits_parse (fuel u : Nat) (acc : List Char) (h : u < 10 ^ fuel)
    (hu : u ≤ MaxUint64) :
    ParseUintLoop (formatDigits fuel u acc) 0 = ParseUintLoop acc u := by
  induction fuel generalizing u acc with
  | zero =>
    have : u = 0 := by
      simp only [pow_zero] at h
      omega
    subst this
    rfl
  | succ fuel ih =>
    have hlt : u % 10 < 10 := Nat.mod_lt _ (by decide)
    unfold formatDigits
    by_cases h0 : u / 10 = 0
    · simp only [h0, if_true]
      have hu10 : u % 10 = u := by omega
      rw [hu10] at hlt ⊢
      rw [ParseUintLoop_digit u 0 acc hlt (by omega)]
      simp
    · simp only [h0, if_false]
      have h1 : u / 10 < 10 ^ fuel := by
        rw [pow_succ] at h
        omega
      rw [ih (u / 10) _ h1 (by omega), ParseUintLoop_digit (u % 10) (u / 10) acc hlt (by omega)]
      congr 1
      omega

theorem formatDigits_head (fuel u : Nat) (acc : List Char) :
    ∃ d tl, d < 10 ∧ formatDigits (fuel + 1) u acc = digitChar d :: tl := by
  induction fuel generalizing u acc with
  | zero =>
    refine ⟨u % 10, acc, Nat.mod_lt _ (by decide), ?_⟩
    unfold formatDigits
    split_ifs <;> rfl
  | succ fuel ih =>
    unfold formatDigits
    by_cases h0 : u / 10 = 0
    · exact ⟨u % 10, acc, Nat.mod_lt _ (by decide), by simp [h0]⟩
    · simp only [h0, if_false]
      exact ih _ _

/-- Reading back what `strconv.FormatInt` wrote gives the same int64. -/
theorem ParseInt_FormatInt (i : Int) (h : IsInt64 i) : ParseInt (FormatInt i) = (i, none) := by
  simp only [IsInt64, MinInt64, MaxInt64] at h
  obtain ⟨d, tl, hd, hfmt⟩ := formatDigits_head 19 (if i < 0 then -i else i).toNat []
  obtain ⟨_, _, hplus, hminus⟩ := digitChar_spec d hd
  have hparse := formatDigits_parse 20 (if i < 0 then -i else i).toNat []
    (by split_ifs <;> omega) (by unfold MaxUint64; split_ifs <;> omega)
  by_cases hneg : i < 0
  · simp only [hneg, if_true] at hfmt hparse
    have hdata : (FormatInt i).data = '-' :: formatDigits 20 (-i).toNat [] := by
      simp [FormatInt, hneg]
    unfold ParseInt
    rw [hdata]
    simp only [List.cons_ne_nil, if_false, List.head?_cons, beq_self_eq_true, Bool.or_true,
      if_true, List.tail_cons, ParseUint]
    rw [hfmt]
    simp only [List.cons_ne_nil, if_false]
    rw [← hfmt, hparse]
    simp only [ParseUintLoop, Bool.not_true, Bool.false_and, Bool.true_and, decide_eq_true_eq,
      Bool.false_eq_true, if_false]
    rw [if_neg (by omega)]
    simp only [wrapInt64, Prod.mk.injEq, and_true]
    omega
  · simp only [hneg, if_false] at hfmt hparse
    have hdata : (FormatInt i).data = formatDigits 20 i.toNat [] := by
      simp [FormatInt, hneg]
    have hp : ((some (digitChar d) : Option Char) == some '+') = false := by
      simpa using hplus
    have hm : ((some (digitChar d) : Option Char) == some '-') = false := by
      simpa using hminus
    unfold ParseInt
    rw [hdata, hfmt]
    simp only [List.cons_ne_nil, if_false, List.head?_cons, hp, hm, Bool.or_false,
      Bool.false_eq_true, ParseUint]
    rw [← hfmt, hparse]
    simp only [ParseUintLoop, Bool.not_false, Bool.true_and, Bool.false_and, decide_eq_true_eq,
      Bool.false_eq_true, if_false]
    rw [if_neg (by omega)]
    simp only [wrapInt64, Prod.mk.injEq, and_true]
    omega

/-! ## Event validation and parsing together -/

theorem ValidateEvent_none_createdAt (Kind : Int) (CheckID : Event → Bool)
    (CheckSignature : Event → Bool × Option String) (e : Event)
    (h : ValidateEvent Kind CheckID CheckSignature e = none) :
    e.Kind = Kind ∧ 0 ≤ e.CreatedAt ∧ e.CreatedAt ≤ 253402300799 := by
  have hmin : MinTime.Unix = 0 := by decide
  have hmax : MaxTime.Unix = 253402300799 := by decide
  unfold ValidateEvent at h
  rw [hmin, hmax] at h
  by_cases c1 : e.Kind = Kind
  · by_cases c2 : e.CreatedAt < 0
    · simp [c1, c2] at h
    · by_cases c3 : e.CreatedAt > 253402300799
      · simp [c1, c2, c3] at h
      · exact ⟨c1, by omega, by omega⟩
  · simp [c1] at h

theorem ValidateEvent_pass (Kind : Int) (e : Event) (hk : e.Kind = Kind)
    (h0 : 0 ≤ e.CreatedAt) (h1 : e.CreatedAt ≤ 253402300799) :
    ValidateEvent Kind checkIDPass checkSignaturePass e = none := by
  have hmin : MinTime.Unix = 0 := by decide
  have hmax : MaxTime.Unix = 253402300799 := by decide
  unfold ValidateEvent
  rw [hmin, hmax]
  have c2 : ¬ e.CreatedAt < 0 := by omega
  have c3 : ¬ e.CreatedAt > 253402300799 := by omega
  simp [hk, c2, c3, checkIDPass, checkSignaturePass]

theorem Unix_valid (n : Int) : (Unix n 0).Valid := by
  have hu : Time.unixToInternal = 62135596800 := by decide
  simp only [Unix, hu, Time.Valid, lt_self_iff_false, ge_iff_le, false_or]
  rw [if_neg (by omega)]
  exact ⟨wrapInt64_isInt64 _, by simp, by simp⟩

/-- The time `time.Unix(n, 0)` lies between `MinTime` and `MaxTime` exactly when the int64 `n`
lies between 0 and 253402300799. -/
theorem inBounds_Unix_iff (n : Int) (h : IsInt64 n) :
    InBounds (Unix n 0) ↔ 0 ≤ n ∧ n ≤ 253402300799 := by
  have hu : Time.unixToInternal = 62135596800 := by decide
  simp only [IsInt64, MinInt64, MaxInt64] at h
  simp only [InBounds, MinTime_eq, MaxTime_eq, Time.nanos, Unix, hu, lt_self_iff_false,
    ge_iff_le, false_or, wrapInt64]
  rw [if_neg (by omega)]
  simp only
  omega

theorem inBounds_MinTime : InBounds MinTime := by decide

theorem inBounds_MaxTime : InBounds MaxTime := by decide

theorem tagValue_eq_none_of_isTag (name : String) (tag : List String)
    (h : isTag name tag = false) : tagValue name tag = none := by
  match tag with
  | [] => rfl
  | [_] => rfl
  | n :: v :: rest =>
    simp only [isTag, decide_eq_false_iff_not] at h
    simp [tagValue, h]

theorem isBadTimeTag_of_no_time_tag (tag : List String)
    (h : isTag "iat" tag = false ∧ isTag "exp" tag = false ∧ isTag "nbf" tag = false) :
    isBadTimeTag tag = false := by
  match tag with
  | [] => rfl
  | [_] => rfl
  | n :: v :: rest =>
    simp only [isTag, decide_eq_false_iff_not] at h
    simp [isBadTimeTag, h.1, h.2.1, h.2.2]

/-- Tags with fewer than two elements do not change the result of the loop. -/
theorem ParseTokenLoop_filter (tags : List (List String)) (token : Token) :
    ParseTokenLoop (tags.filter (fun tag => decide (2 ≤ tag.length))) token =
      ParseTokenLoop tags token := by
  induction tags generalizing token with
  | nil => rfl
  | cons tag rest ih =>
    rw [List.filter_cons]
    by_cases h : 2 ≤ tag.length
    · simp only [h, decide_True, if_true]
      unfold ParseTokenLoop
      cases parseTag token tag with
      | error err => rfl
      | ok token1 => exact ih token1
    · simp only [h, decide_False, Bool.false_eq_true, if_false]
      have h1 : parseTag token tag = Except.ok token := by
        match tag, h with
        | [], _ => rfl
        | [_], _ => rfl
        | _ :: _ :: _, h => simp only [List.length_cons] at h; omega
      rw [ih]
      conv_rhs => unfold ParseTokenLoop
      rw [h1]

/-! ## Events with many claims -/

theorem claimName_injective (i j : Nat) (h : claimName i = claimName j) : i = j := by
  unfold claimName at h
  have h1 := congrArg (fun s => s.data.length) h
  simp only at h1
  simp only [List.length_replicate] at h1
  omega

theorem claimName_not_registered (i : Nat) : claimName i ∉ registeredNames := by
  intro h
  have hall : ∀ c ∈ (claimName i).data, c = 'a' := by
    intro c hc
    exact List.eq_of_mem_replicate hc
  have hno : ∀ r ∈ registeredNames, ¬ (∀ c ∈ r.data, c = 'a') := by decide
  exact hno _ h hall

theorem claimTag_custom (i : Nat) : isCustomTag [claimName i, "v"] = true := by
  simp only [isCustomTag, decide_eq_true_eq]
  exact claimName_not_registered i

theorem claimTag_not_bad (i : Nat) : isBadTimeTag [claimName i, "v"] = false := by
  have h := claimName_not_registered i
  have h1 : ¬ claimName i = "iat" := fun e => h (by rw [e]; decide)
  have h2 : ¬ claimName i = "exp" := fun e => h (by rw [e]; decide)
  have h3 : ¬ claimName i = "nbf" := fun e => h (by rw [e]; decide)
  simp [isBadTimeTag, h1, h2, h3]

theorem claimStep_claimTag (claims : Option ClaimMap) (i : Nat) :
    claimStep claims [claimName i, "v"] =
      some (ClaimMap.set (claimEntries claims) (claimName i) ["v"]) := by
  simp [claimStep, claimTag_custom, claimEntries]

theorem foldl_claimStep_many (n : Nat) :
    (claimEntries (((List.range n).map (fun i => [claimName i, "v"])).foldl claimStep none)).map
      Prod.fst = (List.range n).map claimName := by
  induction n with
  | zero => rfl
  | succ n ih =>
    rw [List.range_succ, List.map_append, List.foldl_append, List.map_append]
    simp only [List.map_cons, List.map_nil, List.foldl_cons, List.foldl_nil]
    rw [claimStep_claimTag]
    simp only [claimEntries, Option.getD_some]
    rw [ClaimMap.keys_set]
    unfold claimEntries at ih
    rw [ih, if_neg]
    intro hm
    obtain ⟨j, hj, hje⟩ := List.mem_map.mp hm
    have := claimName_injective j n hje
    rw [List.mem_range] at hj
    omega

/-- For every `n` the event with `n` custom claims passes event validation, when the
identifier and signature checks pass, and is parsed to a token with `n` custom claims. -/
theorem manyClaimsEvent_accepted (kind : Int) (n : Nat) :
    (manyClaimsEvent kind n).Tags.length = n ∧
    (∀ tag ∈ (manyClaimsEvent kind n).Tags, isCustomTag tag = true) ∧
    ValidateEvent kind checkIDPass checkSignaturePass (manyClaimsEvent kind n) = none ∧
    ∃ t, ParseToken (manyClaimsEvent kind n) = (t, none) ∧ (claimEntries t.Claims).length = n := by
  refine ⟨by simp [manyClaimsEvent], ?_, ?_, ?_⟩
  · intro tag hm
    simp only [manyClaimsEvent, List.mem_map] at hm
    obtain ⟨i, _, hi⟩ := hm
    rw [← hi]
    exact claimTag_custom i
  · exact ValidateEvent_pass kind _ rfl (by simp [manyClaimsEvent]) (by simp [manyClaimsEvent])
  · refine ⟨_, (ParseToken_ok_iff _ _).mpr ⟨?_, rfl⟩, ?_⟩
    · intro tag hm
      simp only [manyClaimsEvent, List.mem_map] at hm
      obtain ⟨i, _, hi⟩ := hm
      rw [← hi]
      exact claimTag_not_bad i
    · rw [foldl_applyTag_Claims]
      have h := congrArg List.length (foldl_claimStep_many n)
      simp only [List.length_map, List.length_range] at h
      exact h

/-- The clock step of the strict policy is the activity predicate of the token, for every
clock skew: on a token with an identifier and sound time bounds, `Validate` returns
`NotYetValid` or `Expired` exactly when `IsActiveAt` is false. -/
theorem StrictValidator.Validate_clock_step (v : StrictValidator) (now : Time) (t : Token)
    (hid : t.ID ≠ "") (hb : ValidateTimeBounds t = none) :
    (v.Validate now t = some Error.ErrNotYetValid ∨ v.Validate now t = some Error.ErrExpired) ↔
      t.IsActiveAt now v.ClockSkew = false := by
  unfold StrictValidator.Validate Token.IsActiveAt
  simp only [hid, if_false, hb]
  by_cases c1 : now.Before (t.NotBefore.Add (Duration.neg v.ClockSkew)) = true
  · simp [c1]
  · by_cases c2 : now.After (t.Expiration.Add v.ClockSkew) = true
    · simp [c1, c2]
    · simp only [c1, c2, if_false, Bool.false_eq_true]
      split_ifs <;> simp

/-! ## The header of `ExtractEventHTTP` -/

theorem splitWhere_ne_nil (p : Char → Bool) (s : List Char) : splitWhere p s ≠ [] := by
  induction s with
  | nil => simp [splitWhere]
  | cons c rest ih =>
    unfold splitWhere
    by_cases hc : p c = true
    · simp [hc]
    · simp only [hc, Bool.false_eq_true, if_false]
      cases hs : splitWhere p rest with
      | nil => simp
      | cons piece pieces => simp

theorem splitWhere_length (p : Char → Bool) (s : List Char) :
    (splitWhere p s).length = s.countP p + 1 := by
  induction s with
  | nil => simp [splitWhere]
  | cons c rest ih =>
    unfold splitWhere
    by_cases hc : p c = true
    · simp [hc, ih, List.countP_cons]
    · simp only [hc, Bool.false_eq_true, if_false]
      cases hs : splitWhere p rest with
      | nil => exact absurd hs (splitWhere_ne_nil p rest)
      | cons piece pieces =>
        rw [hs] at ih
        simp only [List.length_cons] at ih ⊢
        simp [List.countP_cons, hc, ih]

theorem splitWhere_of_none (p : Char → Bool) (s : List Char) (h : ∀ c ∈ s, p c = false) :
    splitWhere p s = [s] := by
  induction s with
  | nil => rfl
  | cons c rest ih =>
    unfold splitWhere
    have hc : p c = false := h c (List.mem_cons_self _ _)
    rw [ih (fun x hx => h x (List.mem_cons_of_mem _ hx))]
    simp [hc]

theorem splitWhere_at (p : Char → Bool) (a b : List Char) (c : Char)
    (ha : ∀ x ∈ a, p x = false) (hc : p c = true) :
    splitWhere p (a ++ c :: b) = a :: splitWhere p b := by
  induction a with
  | nil =>
    rw [List.nil_append]
    conv_lhs => unfold splitWhere
    simp [hc]
  | cons x rest ih =>
    have hx : p x = false := ha x (List.mem_cons_self _ _)
    rw [List.cons_append]
    conv_lhs => unfold splitWhere
    rw [ih (fun y hy => ha y (List.mem_cons_of_mem _ hy))]
    simp [hx]

theorem count_one_split (s : List Char) (h : s.count ' ' = 1) :
    ∃ a b, s = a ++ ' ' :: b ∧ ' ' ∉ a ∧ ' ' ∉ b := by
  induction s with
  | nil => simp at h
  | cons c rest ih =>
    by_cases hc : c = ' '
    · subst hc
      rw [List.count_cons_self] at h
      have h0 : rest.count ' ' = 0 := by omega
      exact ⟨[], rest, rfl, by simp, List.count_eq_zero.mp h0⟩
    · rw [List.count_cons_of_ne (fun e => hc e.symm)] at h
      obtain ⟨a, b, hs, ha, hb⟩ := ih h
      refine ⟨c :: a, b, by rw [hs]; rfl, ?_, hb⟩
      intro hm
      rcases List.mem_cons.mp hm with e | hm
      · exact hc e.symm
      · exact ha hm

theorem stringsSplitSpace_two (a b : List Char) (ha : ' ' ∉ a) (hb : ' ' ∉ b) :
    stringsSplitSpace (String.mk (a ++ ' ' :: b)) = [String.mk a, String.mk b] := by
  have ha2 : ∀ x ∈ a, (x == ' ') = false := by
    intro x hx
    simp only [beq_eq_false_iff_ne, ne_eq]
    intro e
    exact ha (e ▸ hx)
  have hb2 : ∀ x ∈ b, (x == ' ') = false := by
    intro x hx
    simp only [beq_eq_false_iff_ne, ne_eq]
    intro e
    exact hb (e ▸ hx)
  unfold stringsSplitSpace
  rw [splitWhere_at _ a b ' ' ha2 (by simp), splitWhere_of_none _ b hb2]
  rfl

theorem stringsSplitSpace_length (s : String) :
    (stringsSplitSpace s).length = s.data.count ' ' + 1 := by
  unfold stringsSplitSpace
  rw [List.length_map, splitWhere_length, List.count]

/-- The result of `ExtractEventHTTP` on a header made of two pieces around one space. -/
theorem ExtractEventHTTP_two (DecodeString : String → Option (List UInt8))
    (Unmarshal : List UInt8 → Option Event) (a b : List Char) (ha : ' ' ∉ a) (hb : ' ' ∉ b) :
    ExtractEventHTTP DecodeString Unmarshal (String.mk (a ++ ' ' :: b)) =
      classifyParts DecodeString Unmarshal (String.mk a) (String.mk b) := by
  have hne : String.mk (a ++ ' ' :: b) ≠ "" := by
    intro e
    have := congrArg String.data e
    simp at this
  unfold ExtractEventHTTP classifyParts
  rw [if_neg hne, stringsSplitSpace_two a b ha hb]

/-- The result of `ExtractEventHTTP` on a header that does not have exactly one space. -/
theorem ExtractEventHTTP_not_two (DecodeString : String → Option (List UInt8))
    (Unmarshal : List UInt8 → Option Event) (auth : String) (hne : auth ≠ "")
    (h : auth.data.count ' ' ≠ 1) :
    ExtractEventHTTP DecodeString Unmarshal auth = (none, some Error.ErrInvalidHeader) := by
  have hl := stringsSplitSpace_length auth
  unfold ExtractEventHTTP
  rw [if_neg hne]
  split
  · rename_i scheme payload heq
    rw [heq] at hl
    simp only [List.length_cons, List.length_nil] at hl
    omega
  · rfl

theorem classifyParts_error (DecodeString : String → Option (List UInt8))
    (Unmarshal : List UInt8 → Option Event) (scheme payload : String) (err : Error)
    (h : (classifyParts DecodeString Unmarshal scheme payload).2 = some err) :
    (classifyParts DecodeString Unmarshal scheme payload).1 = none := by
  unfold classifyParts at h ⊢
  by_cases hs : scheme ≠ "Nostr"
  · rw [if_pos hs]
  · rw [if_neg hs] at h ⊢
    cases hdec : DecodeString payload with
    | none => rfl
    | some bytes =>
      rw [hdec] at h
      cases hun : Unmarshal bytes with
      | none => simp only [hun]
      | some event =>
        simp only [hun] at h
        cases h

/-! ## The tags written by `ToTags` -/

theorem Time.IsZero_iff (x : Time) : x.IsZero = true ↔ x = Time.zero := by
  obtain ⟨s, n⟩ := x
  simp [Time.IsZero, Time.zero]

theorem foldl_append_entryTag (iter : ClaimMap) (tags : List (List String)) :
    iter.foldl (fun tags entry => tags ++ [entryTag entry]) tags = tags ++ iter.map entryTag := by
  induction iter generalizing tags with
  | nil => simp
  | cons entry rest ih =>
    rw [List.foldl_cons, ih]
    simp

theorem Time.IsZero_eq_false_iff (x : Time) : x.IsZero = false ↔ ¬ x = Time.zero := by
  rw [← Time.IsZero_iff]
  simp

/-- The method `ToTags` writes the registered tags, then one tag per entry met by the
iteration. -/
theorem ToTags_eq (t : Token) (iter : ClaimMap) :
    t.ToTags iter = registeredTags t ++ iter.map entryTag := by
  unfold Token.ToTags
  simp only [foldl_append_entryTag]
  congr 1
  unfold registeredTags
  by_cases c1 : t.Issuer = "" <;> by_cases c2 : t.Subject = "" <;>
    by_cases c3 : t.Audience = [] <;> by_cases c4 : t.IssuedAt = Time.zero <;>
    by_cases c5 : t.Expiration = Time.zero <;> by_cases c6 : t.NotBefore = Time.zero <;>
    simp [c1, c2, c3, c4, c5, c6, List.reduceOption, Time.IsZero_eq_false_iff,
      List.length_pos]

theorem entryTag_injective (a b : String × List String) (h : entryTag a = entryTag b) :
    a = b := by
  obtain ⟨k1, v1⟩ := a
  obtain ⟨k2, v2⟩ := b
  simp only [entryTag, List.cons.injEq] at h
  rw [h.1, h.2]

theorem nodup_of_keys_nodup (m : ClaimMap) (h : (m.map Prod.fst).Nodup) : m.Nodup :=
  List.Nodup.of_map Prod.fst h

/-! ## Writing the tags and parsing them again -/

theorem Time.Unix_isInt64 (x : Time) : IsInt64 x.Unix := wrapInt64_isInt64 _

theorem timeOf_FormatInt (x : Time) (hx : x.Valid) (hn : x.nsec = 0) :
    timeOf (FormatInt x.Unix) = x := by
  obtain ⟨s, n⟩ := x
  simp only at hn
  subst hn
  obtain ⟨hs, _, _⟩ := hx
  simp only [IsInt64, MinInt64, MaxInt64] at hs
  have hu : Time.unixToInternal = 62135596800 := by decide
  unfold timeOf
  rw [ParseInt_FormatInt _ (Time.Unix_isInt64 _)]
  simp only [Unix, Time.Unix, Time.internalToUnix, hu, wrapInt64, lt_self_iff_false, ge_iff_le,
    false_or]
  rw [if_neg (by omega)]
  simp only [Time.mk.injEq, and_true]
  omega

theorem isBadTimeTag_of_custom (tag : List String) (h : isCustomTag tag = true) :
    isBadTimeTag tag = false := by
  match tag with
  | [] => rfl
  | [_] => rfl
  | n :: v :: rest =>
    simp only [isCustomTag, decide_eq_true_eq] at h
    have h1 : ¬ n = "iat" := fun e => h (by rw [e]; decide)
    have h2 : ¬ n = "exp" := fun e => h (by rw [e]; decide)
    have h3 : ¬ n = "nbf" := fun e => h (by rw [e]; decide)
    simp [isBadTimeTag, h1, h2, h3]

theorem isCustomTag_entryTag (entry : String × List String)
    (h : entry.1 ∉ registeredNames ∧ entry.2 ≠ []) : isCustomTag (entryTag entry) = true := by
  obtain ⟨k, v⟩ := entry
  obtain ⟨hk, hv⟩ := h
  match v, hv with
  | a :: rest, _ =>
    simp only [entryTag, isCustomTag, decide_eq_true_eq]
    exact hk

theorem applyTag_custom (token : Token) (tag : List String) (h : isCustomTag tag = true) :
    applyTag token tag = { token with Claims := claimStep token.Claims tag } := by
  match tag with
  | [] => simp [isCustomTag] at h
  | [_] => simp [isCustomTag] at h
  | n :: v :: rest =>
    simp only [isCustomTag, decide_eq_true_eq] at h
    have h1 : ¬ n = "iss" := fun e => h (by rw [e]; decide)
    have h2 : ¬ n = "sub" := fun e => h (by rw [e]; decide)
    have h3 : ¬ n = "aud" := fun e => h (by rw [e]; decide)
    have h4 : ¬ n = "iat" := fun e => h (by rw [e]; decide)
    have h5 : ¬ n = "exp" := fun e => h (by rw [e]; decide)
    have h6 : ¬ n = "nbf" := fun e => h (by rw [e]; decide)
    simp [applyTag, tagValue, isTag, h1, h2, h3, h4, h5, h6]

theorem foldl_applyTag_custom (tags : List (List String)) (token : Token)
    (h : ∀ tag ∈ tags, isCustomTag tag = true) :
    tags.foldl applyTag token = { token with Claims := tags.foldl claimStep token.Claims } := by
  induction tags generalizing token with
  | nil => rfl
  | cons tag rest ih =>
    rw [List.foldl_cons, List.foldl_cons, applyTag_custom token tag (h tag (List.mem_cons_self _ _)),
      ih _ (fun x hx => h x (List.mem_cons_of_mem _ hx))]

theorem registeredTags_not_bad (t : Token) :
    ∀ tag ∈ registeredTags t, isBadTimeTag tag = false := by
  intro tag hm
  have hp : ∀ x : Time, (ParseInt (FormatInt x.Unix)).2 = none := by
    intro x
    rw [ParseInt_FormatInt _ (Time.Unix_isInt64 x)]
  unfold registeredTags at hm
  rw [List.reduceOption_mem_iff] at hm
  simp only [List.mem_cons, List.mem_singleton, List.not_mem_nil, or_false] at hm
  rcases hm with h | h | h | h | h | h <;> split_ifs at h <;> cases h
  · simp [isBadTimeTag]
  · simp [isBadTimeTag]
  · cases hA : t.Audience with
    | nil => rfl
    | cons a rest => simp [isBadTimeTag]
  · simp [isBadTimeTag, hp]
  · simp [isBadTimeTag, hp]
  · simp [isBadTimeTag, hp]

theorem foldl_applyTag_registered (t token : Token) (hsub : t.Subject ≠ "")
    (hI : t.IssuedAt ≠ Time.zero) (hE : t.Expiration ≠ Time.zero)
    (hN : t.NotBefore ≠ Time.zero) :
    (registeredTags t).foldl applyTag token =
      { ID := token.ID
        Issuer := if t.Issuer = "" then token.Issuer else t.Issuer
        Subject := t.Subject
        Audience := token.Audience ++ t.Audience
        IssuedAt := timeOf (FormatInt t.IssuedAt.Unix)
        Expiration := timeOf (FormatInt t.Expiration.Unix)
        NotBefore := timeOf (FormatInt t.NotBefore.Unix)
        Claims := token.Claims } := by
  unfold registeredTags
  by_cases c1 : t.Issuer = ""
  · cases hA : t.Audience with
    | nil =>
      simp [c1, hsub, hI, hE, hN, List.reduceOption, applyTag, tagValue, isTag, claimStep,
        isCustomTag, registeredNames]
    | cons a rest =>
      simp [c1, hsub, hI, hE, hN, List.reduceOption, applyTag, tagValue, isTag, claimStep,
        isCustomTag, registeredNames]
  · cases hA : t.Audience with
    | nil =>
      simp [c1, hsub, hI, hE, hN, List.reduceOption, applyTag, tagValue, isTag, claimStep,
        isCustomTag, registeredNames]
    | cons a rest =>
      simp [c1, hsub, hI, hE, hN, List.reduceOption, applyTag, tagValue, isTag, claimStep,
        isCustomTag, registeredNames]

theorem filter_isTag_of_not_key (m : ClaimMap) (n : String) (h : n ∉ m.map Prod.fst) :
    (m.map entryTag).filter (isTag n) = [] := by
  rw [List.filter_eq_nil_iff]
  intro tag hm ht
  obtain ⟨entry, he, hee⟩ := List.mem_map.mp hm
  have hk := isTag_headD n tag ht
  rw [← hee] at hk
  simp only [entryTag, List.headD_cons] at hk
  exact h (List.mem_map.mpr ⟨entry, he, hk⟩)

theorem lastRest_map_entryTag (m : ClaimMap) (hnd : (m.map Prod.fst).Nodup)
    (hne : ∀ entry ∈ m, entry.2 ≠ []) (n : String) :
    lastRest n (m.map entryTag) = ClaimMap.get? m n := by
  induction m with
  | nil => rfl
  | cons p rest ih =>
    obtain ⟨k, v⟩ := p
    rw [List.map_cons, List.nodup_cons] at hnd
    obtain ⟨hk, hrest⟩ := hnd
    have hv : v ≠ [] := hne (k, v) (List.mem_cons_self _ _)
    have ih2 := ih hrest (fun entry he => hne entry (List.mem_cons_of_mem _ he))
    unfold ClaimMap.get?
    by_cases hkn : k = n
    · subst hkn
      have htag : isTag k (entryTag (k, v)) = true := by
        match v, hv with
        | a :: tl, _ => simp [entryTag, isTag]
      unfold lastRest
      rw [List.map_cons, List.filter_cons, if_pos htag, filter_isTag_of_not_key rest k hk]
      simp [entryTag]
    · have htag : isTag n (entryTag (k, v)) = false := by
        match v, hv with
        | a :: tl, _ => simp [entryTag, isTag, hkn]
      rw [if_neg hkn, ← ih2]
      unfold lastRest
      rw [List.map_cons, List.filter_cons]
      simp [htag]

theorem ClaimMap.get?_perm (m1 m2 : ClaimMap) (hp : m1.Perm m2)
    (h2 : (m2.map Prod.fst).Nodup) (k : String) : ClaimMap.get? m1 k = ClaimMap.get? m2 k := by
  have h1 : (m1.map Prod.fst).Nodup := (hp.map Prod.fst).nodup_iff.mpr h2
  apply Option.ext
  intro vals
  rw [Option.mem_def, Option.mem_def, ClaimMap.get?_eq_some_iff m1 h1,
    ClaimMap.get?_eq_some_iff m2 h2]
  exact hp.mem_iff

/-- The claims parsed from the tags of the entries of a map are the map. -/
theorem claims_of_entry_tags (m : ClaimMap) (hnd : (m.map Prod.fst).Nodup)
    (hc : ∀ entry ∈ m, entry.1 ∉ registeredNames ∧ entry.2 ≠ []) (k : String) :
    claimsGet ((m.map entryTag).foldl claimStep none) k = ClaimMap.get? m k := by
  obtain ⟨_, s2, s3⟩ := foldl_claimStep_spec (m.map entryTag)
  unfold claimsGet claimEntries
  apply Option.ext
  intro vals
  rw [Option.mem_def, Option.mem_def, ClaimMap.get?_eq_some_iff _ s2, s3,
    lastRest_map_entryTag m hnd (fun entry he => (hc entry he).2)]
  constructor
  · rintro ⟨_, h⟩
    exact h
  · intro h
    refine ⟨?_, h⟩
    have hm := (ClaimMap.get?_eq_some_iff m hnd k vals).mp h
    exact (hc (k, vals) hm).1

/-- Parsing the tags that `ToTags` wrote for a token with a subject, whole-second times other
than the zero time and custom claims with values gives the token back, up to the identifier
and, when the issuer is empty, the issuer. -/
theorem ParseToken_ToTags (e : Event) (t : Token) (iter : ClaimMap)
    (htags : e.Tags = t.ToTags iter) (hr : RangeOrder t.Claims iter)
    (hv : ClaimsValid t.Claims) (hT : t.Valid) (hsub : t.Subject ≠ "")
    (hI : t.IssuedAt ≠ Time.zero ∧ WholeSecond t.IssuedAt)
    (hE : t.Expiration ≠ Time.zero ∧ WholeSecond t.Expiration)
    (hN : t.NotBefore ≠ Time.zero ∧ WholeSecond t.NotBefore)
    (hc : CustomClaims t.Claims) :
    ∃ p, ParseToken e = (p, none) ∧ p.ID = e.ID ∧
      p.Issuer = (if t.Issuer = "" then e.PubKey else t.Issuer) ∧
      p.Subject = t.Subject ∧ p.Audience = t.Audience ∧ p.IssuedAt = t.IssuedAt ∧
      p.Expiration = t.Expiration ∧ p.NotBefore = t.NotBefore ∧
      ∀ k, claimsGet p.Claims k = claimsGet t.Claims k := by
  unfold RangeOrder at hr
  unfold ClaimsValid at hv
  unfold CustomClaims at hc
  have hci : ∀ entry ∈ iter, entry.1 ∉ registeredNames ∧ entry.2 ≠ [] :=
    fun entry he => hc entry (hr.mem_iff.mp he)
  have hndi : (iter.map Prod.fst).Nodup := (hr.map Prod.fst).nodup_iff.mpr hv
  have hcustom : ∀ tag ∈ iter.map entryTag, isCustomTag tag = true := by
    intro tag hm
    obtain ⟨entry, he, hee⟩ := List.mem_map.mp hm
    rw [← hee]
    exact isCustomTag_entryTag entry (hci entry he)
  have hgood : ∀ tag ∈ e.Tags, isBadTimeTag tag = false := by
    intro tag hm
    rw [htags, ToTags_eq] at hm
    rcases List.mem_append.mp hm with h | h
    · exact registeredTags_not_bad t tag h
    · exact isBadTimeTag_of_custom tag (hcustom tag h)
  have hfold : e.Tags.foldl applyTag (initialToken e) =
      { ID := e.ID
        Issuer := if t.Issuer = "" then e.PubKey else t.Issuer
        Subject := t.Subject
        Audience := t.Audience
        IssuedAt := t.IssuedAt
        Expiration := t.Expiration
        NotBefore := t.NotBefore
        Claims := (iter.map entryTag).foldl claimStep none } := by
    rw [htags, ToTags_eq, List.foldl_append,
      foldl_applyTag_registered t _ hsub hI.1 hE.1 hN.1,
      foldl_applyTag_custom _ _ hcustom,
      timeOf_FormatInt _ hT.1 hI.2, timeOf_FormatInt _ hT.2.1 hE.2,
      timeOf_FormatInt _ hT.2.2 hN.2]
    simp [initialToken]
  refine ⟨_, (ParseToken_ok_iff e _).mpr ⟨hgood, rfl⟩, ?_⟩
  rw [hfold]
  refine ⟨rfl, rfl, rfl, rfl, rfl, rfl, rfl, ?_⟩
  intro k
  simp only
  rw [claims_of_entry_tags iter hndi hci k]
  exact ClaimMap.get?_perm iter _ hr hv k

/-! ## The strict policy and the activity window (C1, C2, C3) -/

/-- C1, at the failing input: with `ClockSkew = math.MinInt64` the strict policy accepts
`wideToken` (window 1970 to 9999, no audience) at an instant of the year 2026, although that
instant lies before `NotBefore - ClockSkew` (the year 2262).  `Validate` returns nil while one
of the four conditions of the claim is false. -/
theorem Validate_min_skew_accepts :
    wideToken.Valid ∧ now2026.Valid ∧ IsInt64 MinInt64 ∧
    StrictValidator.Validate ⟨"identifier", MinInt64⟩ now2026 wideToken = none ∧
    wideToken.ID ≠ "" ∧ ValidateTimeBounds wideToken = none ∧ wideToken.Audience = [] ∧
    now2026.nanos ≤ wideToken.Expiration.nanos + MinInt64 ∧
    ¬ (wideToken.NotBefore.nanos - MinInt64 ≤ now2026.nanos) := by
  decide

/-- C2, at the failing input: the first violation in the order of the claim is `NotYetValid`
(the token has an identifier, its time bounds are sound and `now < NotBefore - ClockSkew`),
but with `ClockSkew = math.MinInt64` the strict policy returns nil. -/
theorem Validate_min_skew_misses_NotYetValid :
    firstViolation ⟨"identifier", MinInt64⟩ now2026 wideToken = some Error.ErrNotYetValid ∧
    StrictValidator.Validate ⟨"identifier", MinInt64⟩ now2026 wideToken = none := by
  decide

/-- C3, at the failing input: with `skew = math.MinInt64` the method `IsActiveAt` reports
`wideToken` active at an instant of 2026, which is not inside
`NotBefore - skew <= now <= Expiration + skew`: the negation `-skew` wraps to `skew`, so the
lower bound is moved 292 years into the past instead of into the future. -/
theorem IsActiveAt_min_skew_outside_window :
    Duration.neg MinInt64 = MinInt64 ∧
    wideToken.IsActiveAt now2026 MinInt64 = true ∧
    ¬ (wideToken.NotBefore.nanos - MinInt64 ≤ now2026.nanos ∧
        now2026.nanos ≤ wideToken.Expiration.nanos + MinInt64) := by
  decide

/-! ## Time bounds (C4) -/

/-- C4.  For every token (whose times satisfy the invariant of `time.Time`),
`ValidateTimeBounds` returns nil exactly when `IssuedAt`, `Expiration` and `NotBefore` are
instants of `[MinTime, MaxTime]`, ends included, and `NotBefore` is not after `Expiration`;
otherwise it returns the first violation in the order `InvalidIssuedAt`,
`InvalidExpiration`, `InvalidNotBefore`, `InvalidTimeWindow`.  `MinTime` is Unix second 0 and
`MaxTime` is 9999-12-31T23:59:59Z (Unix second 253402300799); a token whose three times are
the zero time yields `InvalidIssuedAt`. -/
theorem ValidateTimeBounds_spec (t : Token) (ht : t.Valid) :
    (ValidateTimeBounds t = none ↔
      InBounds t.IssuedAt ∧ InBounds t.Expiration ∧ InBounds t.NotBefore ∧
        t.NotBefore.nanos ≤ t.Expiration.nanos) ∧
    ValidateTimeBounds t = firstTimeViolation t ∧
    (t.IssuedAt = Time.zero → t.Expiration = Time.zero → t.NotBefore = Time.zero →
      ValidateTimeBounds t = some Error.ErrInvalidIssuedAt) ∧
    (MinTime.Unix = 0 ∧ MinTime.nsec = 0) ∧
    (MaxTime = Date 9999 12 31 23 59 59 0 ∧ MaxTime.Unix = 253402300799 ∧ MaxTime.nsec = 0) ∧
    (InBounds MinTime ∧ InBounds MaxTime) := by
  refine ⟨ValidateTimeBounds_eq_none_iff t ht, ValidateTimeBounds_eq_firstTimeViolation t ht,
    ?_, by decide, by decide, by decide⟩
  intro h1 _ _
  have hz : (Time.zero.Before MinTime || Time.zero.After MaxTime) = true := by decide
  unfold ValidateTimeBounds
  rw [h1, if_pos hz]

/-- Witness of C4: a token with the window 1970 to 9999 passes the time bounds. -/
theorem ValidateTimeBounds_spec_witness :
    wideToken.Valid ∧ ValidateTimeBounds wideToken = firstTimeViolation wideToken ∧
      ValidateTimeBounds wideToken = none :=
  ⟨by decide, (ValidateTimeBounds_spec wideToken (by decide)).2.1, by decide⟩

/-! ## Event validation (C5) -/

/-- C5.  With the NWT kind, the identifier check and the signature check as parameters,
`ValidateEvent` returns the first failing check in the order kind, creation time (below 0 or
above 253402300799), identifier, signature (an error or a false flag), and nil exactly when
none fails.  When the kind is wrong or the creation time is out of range the result does not
depend on the identifier and signature checks, and the creation times 0 and 253402300799 are
not rejected by the time check. -/
theorem ValidateEvent_spec (Kind : Int) (CheckID : Event → Bool)
    (CheckSignature : Event → Bool × Option String) (e : Event) :
    ValidateEvent Kind CheckID CheckSignature e =
      firstEventViolation Kind (CheckID e) (CheckSignature e).1 (CheckSignature e).2 e ∧
    (ValidateEvent Kind CheckID CheckSignature e = none ↔
      e.Kind = Kind ∧ 0 ≤ e.CreatedAt ∧ e.CreatedAt ≤ 253402300799 ∧ CheckID e = true ∧
        CheckSignature e = (true, none)) ∧
    (e.Kind ≠ Kind ∨ e.CreatedAt < 0 ∨ e.CreatedAt > 253402300799 →
      ∀ (CheckID2 : Event → Bool) (CheckSignature2 : Event → Bool × Option String),
        ValidateEvent Kind CheckID2 CheckSignature2 e =
          ValidateEvent Kind CheckID CheckSignature e) ∧
    (e.CreatedAt = 0 ∨ e.CreatedAt = 253402300799 →
      ValidateEvent Kind CheckID CheckSignature e ≠ some Error.ErrInvalidEventCreatedAt) := by
  have hmin : MinTime.Unix = 0 := by decide
  have hmax : MaxTime.Unix = 253402300799 := by decide
  have key : ∀ (f : Event → Bool) (g : Event → Bool × Option String),
      ValidateEvent Kind f g e = firstEventViolation Kind (f e) (g e).1 (g e).2 e := by
    intro f g
    unfold ValidateEvent firstEventViolation
    rw [hmin, hmax]
    by_cases c1 : e.Kind = Kind
    · by_cases c2 : e.CreatedAt < 0
      · simp [c1, c2]
      · by_cases c3 : e.CreatedAt > 253402300799
        · simp [c1, c2, c3]
        · cases hid : f e
          · simp [c1, c2, c3]
          · rcases hsig : g e with ⟨ok, err⟩
            cases err with
            | some x => simp [c1, c2, c3]
            | none => cases ok <;> simp [c1, c2, c3]
    · simp [c1]
  refine ⟨key CheckID CheckSignature, ?_, ?_, ?_⟩
  · rw [key]
    unfold firstEventViolation
    rcases hsig : CheckSignature e with ⟨ok, err⟩
    by_cases c1 : e.Kind = Kind
    · by_cases c2 : e.CreatedAt < 0
      · simp [c1, c2]
      · by_cases c3 : e.CreatedAt > 253402300799
        · simp [c1, c2, c3]
        · have c2b : 0 ≤ e.CreatedAt := by omega
          have c3b : e.CreatedAt ≤ 253402300799 := by omega
          cases hid : CheckID e <;> cases err <;> cases ok <;> simp [c1, c2, c3, c2b, c3b]
    · simp [c1]
  · intro h f g
    rw [key, key]
    unfold firstEventViolation
    by_cases c1 : e.Kind = Kind
    · have h2 : e.CreatedAt < 0 ∨ e.CreatedAt > 253402300799 := by
        rcases h with h | h | h
        · exact absurd c1 h
        · exact Or.inl h
        · exact Or.inr h
      simp [c1, h2]
    · simp [c1]
  · intro h
    rw [key]
    unfold firstEventViolation
    have h2 : ¬ (e.CreatedAt < 0 ∨ e.CreatedAt > 253402300799) := by omega
    simp only [h2, if_false]
    split_ifs <;> simp

/-! ## Parsing (C6 to C10) -/

/-- C6.  For every event whose tags all have fewer than two elements (in particular an event
without tags) `ParseToken` succeeds and returns the token with `ID = e.ID`,
`Issuer = Subject = e.PubKey`, `IssuedAt = time.Unix(e.CreatedAt, 0)`, `Expiration = MaxTime`,
`NotBefore = MinTime`, an empty `Audience` and a nil `Claims`; the Unix second of `IssuedAt` is
`e.CreatedAt` (an int64). -/
theorem ParseToken_without_values (e : Event) (h : ∀ tag ∈ e.Tags, tag.length < 2) :
    ParseToken e =
      ({ ID := e.ID, Issuer := e.PubKey, Subject := e.PubKey, Audience := [],
         IssuedAt := Unix e.CreatedAt 0, Expiration := MaxTime, NotBefore := MinTime,
         Claims := none }, none) ∧
    (IsInt64 e.CreatedAt →
      (ParseToken e).1.IssuedAt.Unix = e.CreatedAt ∧ (ParseToken e).1.IssuedAt.nsec = 0) := by
  have h1 : ParseToken e = (initialToken e, none) := by
    rw [ParseToken_eq_loop]
    exact ParseTokenLoop_skip _ _ h
  refine ⟨h1, ?_⟩
  intro hc
  rw [h1]
  exact Unix_Unix e.CreatedAt hc

/-- Witness of C6: an event whose three tags have no value. -/
theorem ParseToken_without_values_witness :
    (∀ tag ∈ bareEvent.Tags, tag.length < 2) ∧
    ParseToken bareEvent =
      ({ ID := "id", Issuer := "pubkey", Subject := "pubkey", Audience := [],
         IssuedAt := Unix 420 0, Expiration := MaxTime, NotBefore := MinTime,
         Claims := none }, none) :=
  ⟨by decide, (ParseToken_without_values bareEvent (by decide)).1⟩

/-- C7.  When `ParseToken` succeeds with token `t`: `t.ID = e.ID`; `t.Issuer` is the second
element of the last iss tag with at least two elements, or `e.PubKey` without such a tag;
`t.Subject` likewise for sub; `t.IssuedAt` is `time.Unix(n, 0)`, whose Unix second is `n`, for
the integer `n` that `strconv.ParseInt` reads in the second element of the last such iat tag,
or the creation time of the event without such a tag; `t.Expiration` likewise for exp with default `MaxTime`, and
`t.NotBefore` for nbf with default `MinTime`.  Every field depends on the tags of its own name
only. -/
theorem ParseToken_registered_claims (e : Event) (t : Token) (h : ParseToken e = (t, none)) :
    t.ID = e.ID ∧
    t.Issuer = (lastValue "iss" e.Tags).getD e.PubKey ∧
    t.Subject = (lastValue "sub" e.Tags).getD e.PubKey ∧
    ((∀ v, lastValue "iat" e.Tags = some v →
        ∃ n, ParseInt v = (n, none) ∧ t.IssuedAt = Unix n 0 ∧ t.IssuedAt.Unix = n) ∧
      (lastValue "iat" e.Tags = none → t.IssuedAt = Unix e.CreatedAt 0)) ∧
    ((∀ v, lastValue "exp" e.Tags = some v →
        ∃ n, ParseInt v = (n, none) ∧ t.Expiration = Unix n 0 ∧ t.Expiration.Unix = n) ∧
      (lastValue "exp" e.Tags = none → t.Expiration = MaxTime)) ∧
    ((∀ v, lastValue "nbf" e.Tags = some v →
        ∃ n, ParseInt v = (n, none) ∧ t.NotBefore = Unix n 0 ∧ t.NotBefore.Unix = n) ∧
      (lastValue "nbf" e.Tags = none → t.NotBefore = MinTime)) := by
  obtain ⟨hgood, ht⟩ := (ParseToken_ok_iff e t).mp h
  have hparse : ∀ name v, (name = "iat" ∨ name = "exp" ∨ name = "nbf") →
      lastValue name e.Tags = some v →
        ParseInt v = ((ParseInt v).1, none) ∧ (timeOf v).Unix = (ParseInt v).1 := by
    intro name v hname hv
    obtain ⟨rest, hm⟩ := lastValue_mem name v e.Tags hv
    have hb := hgood _ hm
    have h2 : (ParseInt v).2 = none := by
      by_contra hne
      have := (isBadTimeTag_iff (name :: v :: rest)).mpr ⟨name, v, rest, rfl, hname, hne⟩
      rw [hb] at this
      cases this
    exact ⟨Prod.ext rfl h2, (Unix_Unix _ (ParseInt_isInt64 v)).1⟩
  have hI := foldl_applyTag_IssuedAt e.Tags (initialToken e)
  have hE := foldl_applyTag_Expiration e.Tags (initialToken e)
  have hN := foldl_applyTag_NotBefore e.Tags (initialToken e)
  rw [← ht] at hI hE hN
  refine ⟨?_, ?_, ?_, ⟨?_, ?_⟩, ⟨?_, ?_⟩, ⟨?_, ?_⟩⟩
  · rw [ht, foldl_applyTag_ID]; rfl
  · rw [ht, foldl_applyTag_Issuer]; rfl
  · rw [ht, foldl_applyTag_Subject]; rfl
  · intro v hv
    obtain ⟨hp1, hp2⟩ := hparse "iat" v (Or.inl rfl) hv
    rw [hv] at hI
    exact ⟨(ParseInt v).1, hp1, hI, by rw [hI]; exact hp2⟩
  · intro hv
    rw [hI, hv]; rfl
  · intro v hv
    obtain ⟨hp1, hp2⟩ := hparse "exp" v (Or.inr (Or.inl rfl)) hv
    rw [hv] at hE
    exact ⟨(ParseInt v).1, hp1, hE, by rw [hE]; exact hp2⟩
  · intro hv
    rw [hE, hv]; rfl
  · intro v hv
    obtain ⟨hp1, hp2⟩ := hparse "nbf" v (Or.inr (Or.inr rfl)) hv
    rw [hv] at hN
    exact ⟨(ParseInt v).1, hp1, hN, by rw [hN]; exact hp2⟩
  · intro hv
    rw [hN, hv]; rfl

/-- Witness of C7: on the tags sub, aud and exp of the parsing test the issuer stays the public
key of the event. -/
theorem ParseToken_registered_claims_witness :
    ParseToken testEvent = (testToken, none) ∧
    testToken.Issuer = (lastValue "iss" testEvent.Tags).getD testEvent.PubKey ∧
    testToken.Issuer = "pubkey" ∧ testToken.NotBefore = MinTime :=
  ⟨by decide, (ParseToken_registered_claims testEvent testToken (by decide)).2.1,
    by decide, by decide⟩

/-- C8.  When `ParseToken` succeeds, the audience of the token is the concatenation, in tag
order, of the elements after the name of every aud tag that has at least two elements; it is
empty when there is no such tag. -/
theorem ParseToken_audience (e : Event) (t : Token) (h : ParseToken e = (t, none)) :
    t.Audience = (e.Tags.filter (isTag "aud")).flatMap List.tail ∧
    ((∀ tag ∈ e.Tags, isTag "aud" tag = false) → t.Audience = []) := by
  obtain ⟨_, ht⟩ := (ParseToken_ok_iff e t).mp h
  have h1 : t.Audience = (e.Tags.filter (isTag "aud")).flatMap List.tail := by
    rw [ht, foldl_applyTag_Audience]; rfl
  refine ⟨h1, ?_⟩
  intro hno
  have : e.Tags.filter (isTag "aud") = [] := by
    rw [List.filter_eq_nil_iff]
    intro tag hm
    rw [hno tag hm]
    simp
  rw [h1, this]
  rfl

/-- Witness of C8: two aud tags accumulate. -/
theorem ParseToken_audience_witness :
    ParseToken customEvent = (customToken, none) ∧
    customToken.Audience = (customEvent.Tags.filter (isTag "aud")).flatMap List.tail ∧
    customToken.Audience = ["a", "b", "c"] :=
  ⟨by decide, (ParseToken_audience customEvent customToken (by decide)).1, by decide⟩

/-- C9.  When `ParseToken` succeeds, `Claims` is nil exactly when no tag with at least two
elements has a name outside the registered names; otherwise the map has one entry per key, its
keys are the names outside the registered names that name a tag with at least two elements,
and the value of a key is the list of the elements after the name in the last such tag. -/
theorem ParseToken_custom_claims (e : Event) (t : Token) (h : ParseToken e = (t, none)) :
    (t.Claims = none ↔ ∀ tag ∈ e.Tags, isCustomTag tag = false) ∧
    ∀ m, t.Claims = some m →
      (m.map Prod.fst).Nodup ∧
      (∀ n, n ∈ m.map Prod.fst ↔ n ∉ registeredNames ∧ ∃ tag ∈ e.Tags, isTag n tag = true) ∧
      (∀ n vals, (n, vals) ∈ m ↔ n ∉ registeredNames ∧ lastRest n e.Tags = some vals) ∧
      (∀ n, ClaimMap.get? m n = if n ∈ registeredNames then none else lastRest n e.Tags) := by
  obtain ⟨_, ht⟩ := (ParseToken_ok_iff e t).mp h
  have hc : t.Claims = e.Tags.foldl claimStep none := by
    rw [ht, foldl_applyTag_Claims]; rfl
  obtain ⟨s1, s2, s3⟩ := foldl_claimStep_spec e.Tags
  rw [← hc] at s1 s2 s3
  refine ⟨s1, ?_⟩
  intro m hm
  rw [hm] at s2 s3
  simp only [Option.getD_some] at s2 s3
  refine ⟨s2, ?_, s3, ?_⟩
  · intro n
    rw [List.mem_map]
    constructor
    · rintro ⟨⟨k, vals⟩, hmem, hk⟩
      simp only at hk
      subst hk
      obtain ⟨hn, hl⟩ := (s3 k vals).mp hmem
      exact ⟨hn, (lastRest_isSome_iff k e.Tags).mp ⟨vals, hl⟩⟩
    · rintro ⟨hn, hex⟩
      obtain ⟨vals, hl⟩ := (lastRest_isSome_iff n e.Tags).mpr hex
      exact ⟨(n, vals), (s3 n vals).mpr ⟨hn, hl⟩, rfl⟩
  · intro n
    apply Option.ext
    intro vals
    rw [Option.mem_def, Option.mem_def, ClaimMap.get?_eq_some_iff m s2, s3]
    by_cases hn : n ∈ registeredNames
    · simp [hn]
    · simp [hn]

/-- Witness of C9: the name role occurs twice and keeps the elements of its last tag. -/
theorem ParseToken_custom_claims_witness :
    ParseToken customEvent = (customToken, none) ∧
    (customToken.Claims = none ↔ ∀ tag ∈ customEvent.Tags, isCustomTag tag = false) ∧
    customToken.Claims = some [("role", ["user", "guest"]), ("permission", ["read", "write"])] :=
  ⟨by decide, (ParseToken_custom_claims customEvent customToken (by decide)).1, by decide⟩

/-- C10.  `ParseToken` fails exactly when some tag with at least two elements is called iat,
exp or nbf and `strconv.ParseInt` refuses its second element.  A failure returns the zero
token together with an invalid unix time error, and it happens wherever the tag stands in the
list, also before a well formed tag of the same name. -/
theorem ParseToken_fails_iff (e : Event) :
    ((ParseToken e).2 ≠ none ↔
      ∃ name value rest, (name :: value :: rest) ∈ e.Tags ∧
        (name = "iat" ∨ name = "exp" ∨ name = "nbf") ∧ (ParseInt value).2 ≠ none) ∧
    ((ParseToken e).2 ≠ none →
      (ParseToken e).1 = Token.zero ∧
        ∃ cause, (ParseToken e).2 = some (Error.InvalidUnixTime cause)) ∧
    (∀ (front back : List (List String)) (name value : String) (rest : List String),
      e.Tags = front ++ (name :: value :: rest) :: back →
      (name = "iat" ∨ name = "exp" ∨ name = "nbf") → (ParseInt value).2 ≠ none →
      (ParseToken e).2 ≠ none) := by
  have hbad : (∃ tag ∈ e.Tags, isBadTimeTag tag = true) ↔
      ∃ name value rest, (name :: value :: rest) ∈ e.Tags ∧
        (name = "iat" ∨ name = "exp" ∨ name = "nbf") ∧ (ParseInt value).2 ≠ none := by
    constructor
    · rintro ⟨tag, hm, hb⟩
      obtain ⟨name, value, rest, e1, h1, h2⟩ := (isBadTimeTag_iff tag).mp hb
      subst e1
      exact ⟨name, value, rest, hm, h1, h2⟩
    · rintro ⟨name, value, rest, hm, h1, h2⟩
      exact ⟨_, hm, (isBadTimeTag_iff _).mpr ⟨name, value, rest, rfl, h1, h2⟩⟩
  have hiff : (ParseToken e).2 ≠ none ↔ ∃ tag ∈ e.Tags, isBadTimeTag tag = true := by
    constructor
    · intro hne
      by_contra hno
      have hall : ∀ tag ∈ e.Tags, isBadTimeTag tag = false := by
        intro tag hm
        cases hx : isBadTimeTag tag with
        | false => rfl
        | true => exact absurd ⟨tag, hm, hx⟩ hno
      rw [ParseToken_eq_loop, ParseTokenLoop_of_no_bad _ _ hall] at hne
      exact hne rfl
    · intro hb
      obtain ⟨cause, hc⟩ := ParseTokenLoop_of_bad e.Tags (initialToken e) hb
      rw [ParseToken_eq_loop, hc]
      simp
  refine ⟨hiff.trans hbad, ?_, ?_⟩
  · intro hne
    obtain ⟨cause, hc⟩ := ParseTokenLoop_of_bad e.Tags (initialToken e) (hiff.mp hne)
    rw [ParseToken_eq_loop, hc]
    exact ⟨rfl, cause, rfl⟩
  · intro front back name value rest htags h1 h2
    apply (hiff.trans hbad).mpr
    refine ⟨name, value, rest, ?_, h1, h2⟩
    rw [htags]
    simp

/-! ## Time bounds after parsing (C11) -/

/-- C11, counterexample: the event whose exp tag holds "253402300800" is parsed without an
error, and the expiration of the token is after `MaxTime`; `ValidateTimeBounds` rejects the
token with `InvalidExpiration`. -/
theorem ParseToken_exp_after_MaxTime :
    (ParseToken lateEvent).2 = none ∧
    ¬ InBounds (ParseToken lateEvent).1.Expiration ∧
    ValidateTimeBounds (ParseToken lateEvent).1 = some Error.ErrInvalidExpiration := by
  decide

/-- C11, amended.  When `ParseToken` succeeds the three times of the token satisfy the
invariant of `time.Time`, and each of them lies in `[MinTime, MaxTime]` exactly when the Unix
second it comes from lies in `[0, 253402300799]`: the integer of the last iat, exp or nbf tag
with a value, or the creation second of the event for `IssuedAt` without an iat tag; without
an exp tag `Expiration` is `MaxTime` and without an nbf tag `NotBefore` is `MinTime`, both in
bounds.  `ParseToken` checks no range. -/
theorem ParseToken_time_bounds (e : Event) (t : Token) (h : ParseToken e = (t, none))
    (hc : IsInt64 e.CreatedAt) :
    t.Valid ∧
    ((∀ v, lastValue "iat" e.Tags = some v →
        (InBounds t.IssuedAt ↔ 0 ≤ (ParseInt v).1 ∧ (ParseInt v).1 ≤ 253402300799)) ∧
      (lastValue "iat" e.Tags = none →
        (InBounds t.IssuedAt ↔ 0 ≤ e.CreatedAt ∧ e.CreatedAt ≤ 253402300799))) ∧
    ((∀ v, lastValue "exp" e.Tags = some v →
        (InBounds t.Expiration ↔ 0 ≤ (ParseInt v).1 ∧ (ParseInt v).1 ≤ 253402300799)) ∧
      (lastValue "exp" e.Tags = none → InBounds t.Expiration)) ∧
    ((∀ v, lastValue "nbf" e.Tags = some v →
        (InBounds t.NotBefore ↔ 0 ≤ (ParseInt v).1 ∧ (ParseInt v).1 ≤ 253402300799)) ∧
      (lastValue "nbf" e.Tags = none → InBounds t.NotBefore)) := by
  obtain ⟨_, ht⟩ := (ParseToken_ok_iff e t).mp h
  have hI := foldl_applyTag_IssuedAt e.Tags (initialToken e)
  have hE := foldl_applyTag_Expiration e.Tags (initialToken e)
  have hN := foldl_applyTag_NotBefore e.Tags (initialToken e)
  rw [← ht] at hI hE hN
  have key : ∀ (x : Time) (name : String) (d : Time),
      x = ((lastValue name e.Tags).map timeOf).getD d →
      (∀ v, lastValue name e.Tags = some v → x = Unix (ParseInt v).1 0) ∧
      (lastValue name e.Tags = none → x = d) := by
    intro x name d hx
    constructor
    · intro v hv
      rw [hx, hv]
      rfl
    · intro hv
      rw [hx, hv]
      rfl
  obtain ⟨i1, i2⟩ := key _ _ _ hI
  obtain ⟨e1, e2⟩ := key _ _ _ hE
  obtain ⟨n1, n2⟩ := key _ _ _ hN
  have hvalid : ∀ (x : Time) (name : String) (d : Time), d.Valid →
      (∀ v, lastValue name e.Tags = some v → x = Unix (ParseInt v).1 0) →
      (lastValue name e.Tags = none → x = d) → x.Valid := by
    intro x name d hd h1 h2
    cases hl : lastValue name e.Tags with
    | none => rw [h2 hl]; exact hd
    | some v => rw [h1 v hl]; exact Unix_valid _
  refine ⟨⟨hvalid _ _ _ (Unix_valid _) i1 i2, hvalid _ _ _ MaxTime_valid e1 e2,
    hvalid _ _ _ MinTime_valid n1 n2⟩, ⟨?_, ?_⟩, ⟨?_, ?_⟩, ⟨?_, ?_⟩⟩
  · intro v hv
    rw [i1 v hv]
    exact inBounds_Unix_iff _ (ParseInt_isInt64 v)
  · intro hv
    rw [i2 hv]
    exact inBounds_Unix_iff _ hc
  · intro v hv
    rw [e1 v hv]
    exact inBounds_Unix_iff _ (ParseInt_isInt64 v)
  · intro hv
    rw [e2 hv]
    exact inBounds_MaxTime
  · intro v hv
    rw [n1 v hv]
    exact inBounds_Unix_iff _ (ParseInt_isInt64 v)
  · intro hv
    rw [n2 hv]
    exact inBounds_MinTime

/-- Witness of C11 amended: the event of the parsing test. -/
theorem ParseToken_time_bounds_witness :
    ParseToken testEvent = (testToken, none) ∧ IsInt64 testEvent.CreatedAt ∧ testToken.Valid :=
  ⟨by decide, by decide, (ParseToken_time_bounds testEvent testToken (by decide) (by decide)).1⟩

/-! ## The clock step of the strict policy (C15) -/

/-- C15, at the failing input: with `ClockSkew = math.MinInt64`, on a token with an
identifier and sound time bounds, `now` is before `NotBefore - ClockSkew` and yet `Validate`
does not return `NotYetValid` (it returns nil); `IsActiveAt` is true for the same reason. -/
theorem Validate_min_skew_clock_step :
    audienceToken.ID ≠ "" ∧ ValidateTimeBounds audienceToken = none ∧
    now2026.nanos < audienceToken.NotBefore.nanos - MinInt64 ∧
    StrictValidator.Validate ⟨"identifier", MinInt64⟩ now2026 audienceToken ≠
      some Error.ErrNotYetValid ∧
    StrictValidator.Validate ⟨"identifier", MinInt64⟩ now2026 audienceToken = none ∧
    audienceToken.IsActiveAt now2026 MinInt64 = true := by
  decide

/-! ## The bound on the number of claims (C17) -/

/-- C17, counterexample: an event with 513 custom claim tags, one more than `MaxClaims`,
passes `ValidateEvent` (with passing identifier and signature checks) and is parsed by
`ParseToken` to a token with 513 custom claims. -/
theorem ParseToken_accepts_513_claims :
    MaxClaims = 512 ∧ (manyClaimsEvent 0 513).Tags.length = 513 ∧
    ValidateEvent 0 checkIDPass checkSignaturePass (manyClaimsEvent 0 513) = none ∧
    ∃ t, ParseToken (manyClaimsEvent 0 513) = (t, none) ∧ (claimEntries t.Claims).length = 513 :=
  ⟨rfl, (manyClaimsEvent_accepted 0 513).1, (manyClaimsEvent_accepted 0 513).2.2.1,
    (manyClaimsEvent_accepted 0 513).2.2.2⟩

/-- C17, amended.  `MaxClaims` is 512, and neither `ValidateEvent` nor `ParseToken` enforces
it: for every number `n` there is an event with `n` custom claim tags that passes
`ValidateEvent` (with passing identifier and signature checks) and that `ParseToken` turns into
a token with `n` custom claims.  `ValidateEvent` looks at the tags only through the identifier
and signature checks. -/
theorem MaxClaims_not_enforced (Kind : Int) (n : Nat) :
    MaxClaims = 512 ∧
    ((manyClaimsEvent Kind n).Tags.length = n ∧
      (∀ tag ∈ (manyClaimsEvent Kind n).Tags, isCustomTag tag = true) ∧
      ValidateEvent Kind checkIDPass checkSignaturePass (manyClaimsEvent Kind n) = none ∧
      ∃ t, ParseToken (manyClaimsEvent Kind n) = (t, none) ∧
        (claimEntries t.Claims).length = n) ∧
    (∀ (CheckID : Event → Bool) (CheckSignature : Event → Bool × Option String) (e : Event)
      (tags : List (List String)),
      CheckID { e with Tags := tags } = CheckID e →
      CheckSignature { e with Tags := tags } = CheckSignature e →
      ValidateEvent Kind CheckID CheckSignature { e with Tags := tags } =
        ValidateEvent Kind CheckID CheckSignature e) := by
  refine ⟨rfl, manyClaimsEvent_accepted Kind n, ?_⟩
  intro CheckID CheckSignature e tags h1 h2
  unfold ValidateEvent
  rw [h1, h2]

/-! ## Tags without a value (C18) -/

/-- C18.  Removing every tag with fewer than two elements from the tags of an event does not
change the result of `ParseToken`, error and token alike; in particular removing one such tag
anywhere in the list does not. -/
theorem ParseToken_ignores_valueless_tags (e : Event) :
    ParseToken { e with Tags := e.Tags.filter (fun tag => decide (2 ≤ tag.length)) } =
      ParseToken e ∧
    (∀ (front back : List (List String)) (short : List String),
      e.Tags = front ++ short :: back → short.length < 2 →
      ParseToken e = ParseToken { e with Tags := front ++ back }) := by
  have key : ∀ tags : List (List String),
      ParseToken { e with Tags := tags.filter (fun tag => decide (2 ≤ tag.length)) } =
        ParseToken { e with Tags := tags } := by
    intro tags
    exact ParseTokenLoop_filter tags _
  refine ⟨key e.Tags, ?_⟩
  intro front back short htags hshort
  have h1 : ParseToken e = ParseToken { e with Tags := front ++ short :: back } := by
    rw [← htags]
  have hf : (front ++ short :: back).filter (fun tag => decide (2 ≤ tag.length)) =
      (front ++ back).filter (fun tag => decide (2 ≤ tag.length)) := by
    have : ¬ 2 ≤ short.length := by omega
    simp [List.filter_append, List.filter_cons, this]
  rw [h1, ← key (front ++ short :: back), hf, key]

/-! ## Event validation implies sound time bounds (C19) -/

/-- C19.  If `ValidateEvent` accepts an event, whatever the identifier and signature checks
are, and no tag with at least two elements is called iat, exp or nbf, then `ParseToken`
succeeds and `ValidateTimeBounds` accepts the token. -/
theorem ValidateEvent_gives_time_bounds (Kind : Int) (CheckID : Event → Bool)
    (CheckSignature : Event → Bool × Option String) (e : Event)
    (hv : ValidateEvent Kind CheckID CheckSignature e = none)
    (hno : ∀ tag ∈ e.Tags,
      isTag "iat" tag = false ∧ isTag "exp" tag = false ∧ isTag "nbf" tag = false) :
    ∃ t, ParseToken e = (t, none) ∧ ValidateTimeBounds t = none := by
  obtain ⟨_, h0, h1⟩ := ValidateEvent_none_createdAt Kind CheckID CheckSignature e hv
  have hgood : ∀ tag ∈ e.Tags, isBadTimeTag tag = false :=
    fun tag hm => isBadTimeTag_of_no_time_tag tag (hno tag hm)
  have hnone : ∀ name, (name = "iat" ∨ name = "exp" ∨ name = "nbf") →
      lastValue name e.Tags = none := by
    intro name hname
    rw [lastValue_eq_none_iff]
    intro tag hm
    apply tagValue_eq_none_of_isTag
    rcases hname with h | h | h <;> subst h
    · exact (hno tag hm).1
    · exact (hno tag hm).2.1
    · exact (hno tag hm).2.2
  refine ⟨_, (ParseToken_ok_iff e _).mpr ⟨hgood, rfl⟩, ?_⟩
  have hI : (e.Tags.foldl applyTag (initialToken e)).IssuedAt = Unix e.CreatedAt 0 := by
    rw [foldl_applyTag_IssuedAt, hnone "iat" (Or.inl rfl)]; rfl
  have hE : (e.Tags.foldl applyTag (initialToken e)).Expiration = MaxTime := by
    rw [foldl_applyTag_Expiration, hnone "exp" (Or.inr (Or.inl rfl))]; rfl
  have hN : (e.Tags.foldl applyTag (initialToken e)).NotBefore = MinTime := by
    rw [foldl_applyTag_NotBefore, hnone "nbf" (Or.inr (Or.inr rfl))]; rfl
  have hint : IsInt64 e.CreatedAt := by
    simp only [IsInt64, MinInt64, MaxInt64]
    omega
  rw [ValidateTimeBounds_eq_none_iff _ (by
    unfold Token.Valid
    rw [hI, hE, hN]
    exact ⟨Unix_valid _, MaxTime_valid, MinTime_valid⟩)]
  rw [hI, hE, hN]
  exact ⟨(inBounds_Unix_iff _ hint).mpr ⟨h0, h1⟩, inBounds_MaxTime, inBounds_MinTime,
    by decide⟩

/-- Witness of C19: an event of kind 1 whose tags have no value, with passing checks. -/
theorem ValidateEvent_gives_time_bounds_witness :
    ValidateEvent 1 checkIDPass checkSignaturePass bareEvent = none ∧
    ∃ t, ParseToken bareEvent = (t, none) ∧ ValidateTimeBounds t = none :=
  ⟨by decide,
    ValidateEvent_gives_time_bounds 1 checkIDPass checkSignaturePass bareEvent (by decide)
      (by decide)⟩

/-! ## The Authorization header (C16) -/

/-- C16, counterexample.  The header "Nostr " (the scheme and one trailing space) has a single
white space separated token, yet with a decoder that maps the empty string to no bytes and a
JSON decoder that refuses them the result is `InvalidEventJSON`, not `InvalidHeaderFormat`.
The header "Nostr  x" (two spaces) has exactly two tokens, the first being the scheme, yet the
result is `InvalidHeaderFormat` even when the decoder accepts "x". -/
theorem ExtractEventHTTP_not_by_tokens :
    (fields "Nostr " = ["Nostr"] ∧
      ExtractEventHTTP decodeEmptyOnly unmarshalNothing "Nostr " =
        (none, some Error.ErrInvalidEventJSON)) ∧
    (fields "Nostr  x" = ["Nostr", "x"] ∧ decodeAll "x" = some [] ∧
      ExtractEventHTTP decodeAll unmarshalNothing "Nostr  x" =
        (none, some Error.ErrInvalidHeader)) := by
  decide

/-- C16, amended.  With the two decoders as parameters, for every header value:
the result is `MissingHeader` when the value is empty; `InvalidHeaderFormat` when it is not
empty and does not contain exactly one space character; and when it is a piece `a`, one space
and a piece `b` (neither containing a space), the result is `InvalidHeaderFormat` if `a` is not
"Nostr" or `b` (possibly empty) is refused by the base64 decoder, `InvalidEventJSON` if the
decoded bytes are refused by the JSON decoder, and the decoded event otherwise.  These cases
cover every header, and every error comes with a nil event. -/
theorem ExtractEventHTTP_spec (DecodeString : String → Option (List UInt8))
    (Unmarshal : List UInt8 → Option Event) (auth : String) :
    (auth = "" →
      ExtractEventHTTP DecodeString Unmarshal auth = (none, some Error.ErrMissingHeader)) ∧
    (auth ≠ "" → auth.data.count ' ' ≠ 1 →
      ExtractEventHTTP DecodeString Unmarshal auth = (none, some Error.ErrInvalidHeader)) ∧
    (∀ a b : List Char, auth.data = a ++ ' ' :: b → ' ' ∉ a → ' ' ∉ b →
      ExtractEventHTTP DecodeString Unmarshal auth =
        (if String.mk a ≠ "Nostr" then (none, some Error.ErrInvalidHeader)
         else
          match DecodeString (String.mk b) with
          | none => (none, some Error.ErrInvalidHeader)
          | some bytes =>
            match Unmarshal bytes with
            | none => (none, some Error.ErrInvalidEventJSON)
            | some event => (some event, none))) ∧
    (auth.data.count ' ' = 1 → ∃ a b, auth.data = a ++ ' ' :: b ∧ ' ' ∉ a ∧ ' ' ∉ b) ∧
    (∀ err, (ExtractEventHTTP DecodeString Unmarshal auth).2 = some err →
      (ExtractEventHTTP DecodeString Unmarshal auth).1 = none) := by
  have htwo : ∀ a b : List Char, auth.data = a ++ ' ' :: b → ' ' ∉ a → ' ' ∉ b →
      ExtractEventHTTP DecodeString Unmarshal auth =
        classifyParts DecodeString Unmarshal (String.mk a) (String.mk b) := by
    intro a b hd ha hb
    have hs : auth = String.mk (a ++ ' ' :: b) := by
      rw [← hd]
    rw [hs]
    exact ExtractEventHTTP_two DecodeString Unmarshal a b ha hb
  refine ⟨?_, ExtractEventHTTP_not_two DecodeString Unmarshal auth, ?_,
    count_one_split auth.data, ?_⟩
  · intro h
    unfold ExtractEventHTTP
    rw [if_pos h]
  · intro a b hd ha hb
    rw [htwo a b hd ha hb]
    rfl
  · intro err herr
    by_cases h0 : auth = ""
    · unfold ExtractEventHTTP
      rw [if_pos h0]
    · by_cases h1 : auth.data.count ' ' = 1
      · obtain ⟨a, b, hd, ha, hb⟩ := count_one_split auth.data h1
        rw [htwo a b hd ha hb] at herr ⊢
        exact classifyParts_error DecodeString Unmarshal _ _ err herr
      · rw [ExtractEventHTTP_not_two DecodeString Unmarshal auth h0 h1]

/-! ## The tags of a token (C12, C13) -/

/-- C12.  For every token, `ToTags` begins with the registered claim tags: the tags
`[iss, Issuer]`, `[sub, Subject]`, `[aud, a1, ..., an]`, `[iat, seconds]`, `[exp, seconds]`,
`[nbf, seconds]` in this order, each present exactly when its field is a non-empty string, a
non-empty list or a time other than the zero time, hence each name at most once; the seconds
are the decimal writing of the Unix second, which `strconv.ParseInt` reads back.  After them
come the tags of the custom claims, so without custom claims they are the whole output: the
zero token gives no tag, and a token with only issuer, subject and audience gives these three
tags.  `MinTime` and `MaxTime` are not the zero time. -/
theorem ToTags_registered (t : Token) (iter : ClaimMap) :
    t.ToTags iter = registeredTags t ++ iter.map entryTag ∧
    ((registeredTags t).map (fun tag => tag.headD "")).Sublist registeredNames ∧
    ((["iss", t.Issuer] ∈ registeredTags t ↔ t.Issuer ≠ "") ∧
      (["sub", t.Subject] ∈ registeredTags t ↔ t.Subject ≠ "") ∧
      (("aud" :: t.Audience) ∈ registeredTags t ↔ t.Audience ≠ []) ∧
      (["iat", FormatInt t.IssuedAt.Unix] ∈ registeredTags t ↔ t.IssuedAt ≠ Time.zero) ∧
      (["exp", FormatInt t.Expiration.Unix] ∈ registeredTags t ↔ t.Expiration ≠ Time.zero) ∧
      (["nbf", FormatInt t.NotBefore.Unix] ∈ registeredTags t ↔ t.NotBefore ≠ Time.zero)) ∧
    (∀ x : Time, ParseInt (FormatInt x.Unix) = (x.Unix, none)) ∧
    (RangeOrder t.Claims iter → claimEntries t.Claims = [] → t.ToTags iter = registeredTags t) ∧
    Token.zero.ToTags [] = [] ∧
    (∀ (issuer subject : String) (audience : List String),
      issuer ≠ "" → subject ≠ "" → audience ≠ [] →
      Token.ToTags { Token.zero with Issuer := issuer, Subject := subject, Audience := audience }
        [] = [["iss", issuer], ["sub", subject], "aud" :: audience]) ∧
    (MinTime ≠ Time.zero ∧ MaxTime ≠ Time.zero) := by
  refine ⟨ToTags_eq t iter, ?_, ?_, ?_, ?_, by decide, ?_, by decide⟩
  · unfold registeredTags
    by_cases c1 : t.Issuer = "" <;> by_cases c2 : t.Subject = "" <;>
      by_cases c3 : t.Audience = [] <;> by_cases c4 : t.IssuedAt = Time.zero <;>
      by_cases c5 : t.Expiration = Time.zero <;> by_cases c6 : t.NotBefore = Time.zero <;>
      simp only [c1, c2, c3, c4, c5, c6, ne_eq, not_true_eq_false, not_false_eq_true, if_true,
        if_false, List.reduceOption_cons_of_some, List.reduceOption_cons_of_none,
        List.reduceOption_nil, List.map_cons, List.map_nil, List.headD_cons] <;>
      decide
  · unfold registeredTags
    by_cases c1 : t.Issuer = "" <;> by_cases c2 : t.Subject = "" <;>
      by_cases c3 : t.Audience = [] <;> by_cases c4 : t.IssuedAt = Time.zero <;>
      by_cases c5 : t.Expiration = Time.zero <;> by_cases c6 : t.NotBefore = Time.zero <;>
      simp [c1, c2, c3, c4, c5, c6, List.reduceOption]
  · intro x
    exact ParseInt_FormatInt _ (wrapInt64_isInt64 _)
  · intro hr he
    have hi : iter = [] := by
      unfold RangeOrder at hr
      rw [he] at hr
      exact List.Perm.eq_nil hr
    rw [ToTags_eq, hi]
    simp
  · intro issuer subject audience h1 h2 h3
    rw [ToTags_eq]
    simp [registeredTags, h1, h2, h3, List.reduceOption, Token.zero]

/-- C13.  For every token and every iteration order of its claims, the tags that `ToTags`
writes after the registered tags are the tags of the entries of `Claims`, the key followed by
the values: they are an arrangement of one tag per entry, nothing else, and the number of tags
is the number of registered tags plus the number of entries.  As the keys of a map are distinct,
no tag is written twice and every entry gives exactly one tag. -/
theorem ToTags_custom (t : Token) (iter : ClaimMap) (h : RangeOrder t.Claims iter) :
    (t.ToTags iter).take (registeredTags t).length = registeredTags t ∧
    (t.ToTags iter).drop (registeredTags t).length = iter.map entryTag ∧
    (iter.map entryTag).Perm ((claimEntries t.Claims).map entryTag) ∧
    (∀ tag, tag ∈ (t.ToTags iter).drop (registeredTags t).length ↔
      ∃ entry ∈ claimEntries t.Claims, tag = entry.1 :: entry.2) ∧
    (t.ToTags iter).length = (registeredTags t).length + (claimEntries t.Claims).length ∧
    (ClaimsValid t.Claims →
      ((t.ToTags iter).drop (registeredTags t).length).Nodup ∧
      ∀ entry ∈ claimEntries t.Claims,
        ((t.ToTags iter).drop (registeredTags t).length).countP
          (fun tag => decide (tag = entry.1 :: entry.2)) = 1) := by
  unfold RangeOrder at h
  have hdrop : (t.ToTags iter).drop (registeredTags t).length = iter.map entryTag := by
    rw [ToTags_eq, List.drop_left]
  have hperm : (iter.map entryTag).Perm ((claimEntries t.Claims).map entryTag) := h.map entryTag
  refine ⟨?_, hdrop, hperm, ?_, ?_, ?_⟩
  · rw [ToTags_eq, List.take_left]
  · intro tag
    rw [hdrop, hperm.mem_iff, List.mem_map]
    constructor
    · rintro ⟨entry, hm, he⟩
      exact ⟨entry, hm, he.symm⟩
    · rintro ⟨entry, hm, he⟩
      exact ⟨entry, hm, he.symm⟩
  · rw [ToTags_eq, List.length_append, List.length_map, h.length_eq]
  · intro hv
    unfold ClaimsValid at hv
    have hn : ((claimEntries t.Claims).map entryTag).Nodup :=
      (nodup_of_keys_nodup _ hv).map (fun a b hab => entryTag_injective a b hab)
    have hn2 : (iter.map entryTag).Nodup := hperm.nodup_iff.mpr hn
    rw [hdrop]
    refine ⟨hn2, ?_⟩
    intro entry hm
    have hmem : entryTag entry ∈ iter.map entryTag :=
      hperm.mem_iff.mpr (List.mem_map_of_mem entryTag hm)
    have hcount := List.count_eq_one_of_mem hn2 hmem
    exact hcount

/-- Witness of C13: the token parsed from `customEvent`, iterated in another order. -/
theorem ToTags_custom_witness :
    RangeOrder customToken.Claims customOrder ∧
    (customToken.ToTags customOrder).drop (registeredTags customToken).length =
      [["permission", "read", "write"], ["role", "user", "guest"]] :=
  ⟨by decide, (ToTags_custom customToken customOrder (by decide)).2.1⟩

/-! ## Round trip (C14, C20) -/

/-- C14, counterexample.  The round trip fails on four tokens.  The zero token: `ToTags`
writes nothing and the parsed token has the public key of the event as subject, the creation
time as `IssuedAt` and `MaxTime` as `Expiration`.  A token with a custom claim called exp:
the parse fails.  A token with a custom claim without values: the claim is lost.  A token
issued five nanoseconds after a full second: the nanoseconds are lost. -/
theorem ToTags_ParseToken_not_identity :
    ((ParseToken (eventWith (Token.zero.ToTags []))).2 = none ∧
      (ParseToken (eventWith (Token.zero.ToTags []))).1.Subject ≠ Token.zero.Subject ∧
      (ParseToken (eventWith (Token.zero.ToTags []))).1.IssuedAt ≠ Token.zero.IssuedAt ∧
      (ParseToken (eventWith (Token.zero.ToTags []))).1.Expiration ≠ Token.zero.Expiration) ∧
    (RangeOrder expClaimToken.Claims [("exp", ["soon"])] ∧
      (ParseToken (eventWith (expClaimToken.ToTags [("exp", ["soon"])]))).2 ≠ none) ∧
    (RangeOrder emptyClaimToken.Claims [("role", [])] ∧
      (ParseToken (eventWith (emptyClaimToken.ToTags [("role", [])]))).2 = none ∧
      claimsGet (ParseToken (eventWith (emptyClaimToken.ToTags [("role", [])]))).1.Claims "role"
        ≠ claimsGet emptyClaimToken.Claims "role") ∧
    ((ParseToken (eventWith (fractionToken.ToTags []))).2 = none ∧
      (ParseToken (eventWith (fractionToken.ToTags []))).1.IssuedAt ≠ fractionToken.IssuedAt) := by
  decide

/-- C14, amended.  For every token with a non-empty subject, whose three times are whole
seconds other than the zero time and whose claims have keys outside the registered names and
non-empty value lists, and for every event whose tags are `ToTags` of the token (the custom
tags in any iteration order), `ParseToken` succeeds and gives a token with the same subject,
audience, `IssuedAt`, `Expiration`, `NotBefore` and, as a mapping, the same claims. -/
theorem ToTags_round_trip (e : Event) (t : Token) (iter : ClaimMap)
    (htags : e.Tags = t.ToTags iter) (hr : RangeOrder t.Claims iter)
    (hv : ClaimsValid t.Claims) (hT : t.Valid) (hsub : t.Subject ≠ "")
    (hI : t.IssuedAt ≠ Time.zero ∧ WholeSecond t.IssuedAt)
    (hE : t.Expiration ≠ Time.zero ∧ WholeSecond t.Expiration)
    (hN : t.NotBefore ≠ Time.zero ∧ WholeSecond t.NotBefore)
    (hc : CustomClaims t.Claims) :
    ∃ p, ParseToken e = (p, none) ∧
      p.Subject = t.Subject ∧ p.Audience = t.Audience ∧ p.IssuedAt = t.IssuedAt ∧
      p.Expiration = t.Expiration ∧ p.NotBefore = t.NotBefore ∧
      ∀ k, claimsGet p.Claims k = claimsGet t.Claims k := by
  obtain ⟨p, h1, _, _, h4, h5, h6, h7, h8, h9⟩ :=
    ParseToken_ToTags e t iter htags hr hv hT hsub hI hE hN hc
  exact ⟨p, h1, h4, h5, h6, h7, h8, h9⟩

/-- Witness of C14 amended: a token without an issuer, its claims iterated in another order
than the order of insertion. -/
theorem ToTags_round_trip_witness :
    RangeOrder anonymousToken.Claims customOrder ∧ ClaimsValid anonymousToken.Claims ∧
    anonymousToken.Valid ∧ CustomClaims anonymousToken.Claims ∧
    ∃ p, ParseToken (eventWith (anonymousToken.ToTags customOrder)) = (p, none) ∧
      p.Subject = anonymousToken.Subject ∧ p.Audience = anonymousToken.Audience ∧
      p.IssuedAt = anonymousToken.IssuedAt ∧ p.Expiration = anonymousToken.Expiration ∧
      p.NotBefore = anonymousToken.NotBefore ∧
      ∀ k, claimsGet p.Claims k = claimsGet anonymousToken.Claims k :=
  ⟨by decide, by decide, by decide, by decide,
    ToTags_round_trip (eventWith (anonymousToken.ToTags customOrder)) anonymousToken customOrder
      rfl (by decide) (by decide) (by decide) (by decide) (by decide) (by decide) (by decide)
      (by decide)⟩

/-- C20.  For every token with non-empty issuer and subject, whose three times are whole
seconds other than the zero time and whose claims have keys outside the registered names and
non-empty value lists, and for every event whose tags are `ToTags` of the token with the
custom tags in any order, `ParseToken` succeeds and gives a token with the same issuer,
subject, audience, `IssuedAt`, `Expiration`, `NotBefore` and, as a mapping, the same claims. -/
theorem ToTags_round_trip_with_issuer (e : Event) (t : Token) (iter : ClaimMap)
    (htags : e.Tags = t.ToTags iter) (hr : RangeOrder t.Claims iter)
    (hv : ClaimsValid t.Claims) (hT : t.Valid) (hiss : t.Issuer ≠ "") (hsub : t.Subject ≠ "")
    (hI : t.IssuedAt ≠ Time.zero ∧ WholeSecond t.IssuedAt)
    (hE : t.Expiration ≠ Time.zero ∧ WholeSecond t.Expiration)
    (hN : t.NotBefore ≠ Time.zero ∧ WholeSecond t.NotBefore)
    (hc : CustomClaims t.Claims) :
    ∃ p, ParseToken e = (p, none) ∧ p.Issuer = t.Issuer ∧
      p.Subject = t.Subject ∧ p.Audience = t.Audience ∧ p.IssuedAt = t.IssuedAt ∧
      p.Expiration = t.Expiration ∧ p.NotBefore = t.NotBefore ∧
      ∀ k, claimsGet p.Claims k = claimsGet t.Claims k := by
  obtain ⟨p, h1, _, h3, h4, h5, h6, h7, h8, h9⟩ :=
    ParseToken_ToTags e t iter htags hr hv hT hsub hI hE hN hc
  rw [if_neg hiss] at h3
  exact ⟨p, h1, h3, h4, h5, h6, h7, h8, h9⟩

/-- Witness of C20: the token parsed from `customEvent`, its claims iterated in another order
than the order of insertion. -/
theorem ToTags_round_trip_with_issuer_witness :
    RangeOrder customToken.Claims customOrder ∧ customToken.Issuer ≠ "" ∧
    ∃ p, ParseToken (eventWith (customToken.ToTags customOrder)) = (p, none) ∧
      p.Issuer = customToken.Issuer ∧
      p.Subject = customToken.Subject ∧ p.Audience = customToken.Audience ∧
      p.IssuedAt = customToken.IssuedAt ∧ p.Expiration = customToken.Expiration ∧
      p.NotBefore = customToken.NotBefore ∧
      ∀ k, claimsGet p.Claims k = claimsGet customToken.Claims k :=
  ⟨by decide, by decide,
    ToTags_round_trip_with_issuer (eventWith (customToken.ToTags customOrder)) customToken
      customOrder rfl (by decide) (by decide) (by decide) (by decide) (by decide) (by decide)
      (by decide) (by decide) (by decide)⟩

/-! ## The tests of the package, replayed on the model -/

/-- The cases of `TestStrictValidator` with a validator of identifier "identifier" and one
minute of skew: the three cases that do not depend on the clock, and the two audience cases on
the widest window. -/
theorem TestStrictValidator_replay :
    StrictValidator.Validate ⟨"identifier", 60000000000⟩ now2026 Token.zero =
      some Error.ErrEmptyID ∧
    StrictValidator.Validate ⟨"identifier", 60000000000⟩ now2026 { Token.zero with ID := "id" } =
      some Error.ErrInvalidIssuedAt ∧
    StrictValidator.Validate ⟨"identifier", 60000000000⟩ now2026
      { Token.zero with
        ID := "id", IssuedAt := Unix 420 0, Expiration := Unix 69 0, NotBefore := Unix 420 0 } =
      some Error.ErrInvalidTimeWindow ∧
    StrictValidator.Validate ⟨"identifier", 60000000000⟩ now2026
      { wideToken with Audience := ["other-identifier"] } = some Error.ErrInvalidAudience ∧
    StrictValidator.Validate ⟨"identifier", 60000000000⟩ now2026
      { wideToken with Audience := ["identifier"] } = none := by
  decide

/-- The cases of `TestParseToken`. -/
theorem TestParseToken_replay :
    ParseToken { ID := "", PubKey := "", CreatedAt := 0, Kind := 0, Tags := [], Content := "",
                 Sig := "" } =
      ({ Token.zero with IssuedAt := Unix 0 0, Expiration := MaxTime, NotBefore := MinTime },
        none) ∧
    ParseToken testEvent = (testToken, none) ∧
    ParseToken { testEvent with Tags := [["role", "admin"], ["permission", "read", "write"]] } =
      ({ ID := "id", Issuer := "pubkey", Subject := "pubkey", Audience := [],
         IssuedAt := Unix 420 0, Expiration := MaxTime, NotBefore := MinTime,
         Claims := some [("role", ["admin"]), ("permission", ["read", "write"])] }, none) := by
  decide

/-- The function `strconv.ParseInt` on some inputs: signs, the int64 limits, and the two kinds
of error. -/
theorem ParseInt_examples :
    ParseInt "6969" = (6969, none) ∧ ParseInt "+12" = (12, none) ∧
    ParseInt "-12" = (-12, none) ∧ ParseInt "007" = (7, none) ∧
    ParseInt "9223372036854775807" = (9223372036854775807, none) ∧
    ParseInt "-9223372036854775808" = (-9223372036854775808, none) ∧
    ParseInt "9223372036854775808" = (9223372036854775807, some NumError.ErrRange) ∧
    ParseInt "-9223372036854775809" = (-9223372036854775808, some NumError.ErrRange) ∧
    ParseInt "" = (0, some NumError.ErrSyntax) ∧ ParseInt "-" = (0, some NumError.ErrSyntax) ∧
    ParseInt "12a" = (0, some NumError.ErrSyntax) ∧ ParseInt "1_000" = (0, some NumError.ErrSyntax) ∧
    ParseInt " 1" = (0, some NumError.ErrSyntax) ∧ ParseInt "1.5" = (0, some NumError.ErrSyntax) := by
  decide

end Nwt
